import Mathlib

/-!
# Saarthi website script (`script.js`): a shallow embedding

The script attaches browser callbacks to a static page.  Each callback is
embedded as a pure function on the part of the page it reads and writes:

* `classList` values are ordered token lists (`ClassList`);
* the scroll listener rewrites two inline style properties of the navbar;
* the mousemove listener rewrites the `transform` of every gradient orb;
* the menu toggle and the anchor click handler act on the two menu elements;
* the two `IntersectionObserver` callbacks walk their entries in order;
* `debounce` is run against an explicit timer queue;
* `animateCounter` is a tick function driven by `setInterval`, computing in
  IEEE-754 binary64 arithmetic as the script does.
-/

namespace Saarthi

/-! ## DOMTokenList -/

/-- A `classList`: the ordered set of class tokens of an element. -/
abbrev ClassList := List String

/-- `classList.contains(token)`. -/
def ClassList.contains (l : ClassList) (token : String) : Bool :=
  decide (token ∈ l)

/-- `classList.add(token)`: appends the token unless it is present. -/
def ClassList.add (l : ClassList) (token : String) : ClassList :=
  if token ∈ l then l else l ++ [token]

/-- `classList.remove(token)`: drops every occurrence of the token. -/
def ClassList.remove (l : ClassList) (token : String) : ClassList :=
  l.filter (fun t => decide (t ≠ token))

/-- `classList.toggle(token)`: removes the token when present, adds it otherwise. -/
def ClassList.toggle (l : ClassList) (token : String) : ClassList :=
  if token ∈ l then ClassList.remove l token else l ++ [token]

/-! ## Navbar background on scroll (lines 100-116) -/

/-- The two inline style properties of `.navbar` the scroll listener assigns. -/
structure NavbarStyle where
  background : String
  boxShadow : String
deriving DecidableEq, Repr

/-- What the scroll listener reads and writes: the navbar's inline style and the
closure variable `lastScroll`. -/
structure ScrollState where
  navbar : NavbarStyle
  lastScroll : ℚ
deriving DecidableEq

/-- State at `DOMContentLoaded`: no inline style yet, `let lastScroll = 0`. -/
def ScrollState.init : ScrollState :=
  { navbar := { background := "", boxShadow := "" }, lastScroll := 0 }

/-- The `scroll` listener; `pageYOffset` is `window.pageYOffset` when the event
is dispatched. -/
def scrollListener (pageYOffset : ℚ) (s : ScrollState) : ScrollState :=
  let currentScroll := pageYOffset
  if currentScroll > 100 then
    { s with
      navbar := { background := "rgba(255, 255, 255, 0.98)",
                  boxShadow := "0 4px 16px rgba(26, 35, 50, 0.12)" },
      lastScroll := currentScroll }
  else
    { s with
      navbar := { background := "rgba(255, 255, 255, 0.95)",
                  boxShadow := "0 2px 8px rgba(26, 35, 50, 0.08)" },
      lastScroll := currentScroll }

/-- Dispatching a sequence of scroll events, oldest first. -/
def runScroll (offsets : List ℚ) (s : ScrollState) : ScrollState :=
  offsets.foldl (fun st y => scrollListener y st) s

/-! ## Parallax effect on the hero orbs (lines 118-132) -/

/-- The viewport size read by the mousemove listener. -/
structure Viewport where
  innerWidth : ℚ
  innerHeight : ℚ

/-- A `mousemove` event together with the viewport at dispatch time. -/
structure MouseMove where
  clientX : ℚ
  clientY : ℚ
  window : Viewport

/-- The value `translate(xpx, ypx)` of `style.transform`. -/
structure Translate where
  x : ℚ
  y : ℚ
deriving DecidableEq

/-- The body of `orbs.forEach((orb, index) => ...)` for one orb, in exact
arithmetic: the transform assigned to orb number `index`. -/
def orbTransform (e : MouseMove) (index : ℕ) : Translate :=
  let mouseX := e.clientX / e.window.innerWidth
  let mouseY := e.clientY / e.window.innerHeight
  let speed := ((index : ℚ) + 1) * 20
  let x := (mouseX - 0.5) * speed
  let y := (mouseY - 0.5) * speed
  { x := x, y := y }

/-- The `mousemove` listener on the list of orbs: `none` is an orb whose
`style.transform` has never been assigned. -/
def mousemoveListener (e : MouseMove) (orbs : List (Option Translate)) :
    List (Option Translate) :=
  (List.range orbs.length).map (fun index => some (orbTransform e index))

/-- Dispatching a sequence of mousemove events, oldest first. -/
def runMouse (events : List MouseMove) (orbs : List (Option Translate)) :
    List (Option Translate) :=
  events.foldl (fun o e => mousemoveListener e o) orbs

/-! ## Mobile menu toggle and smooth anchor scrolling (lines 61-98) -/

/-- The two menu elements captured at `DOMContentLoaded`, each with its class
list; `none` is a `querySelector` that returned `null`. -/
structure MenuState where
  navLinks : Option ClassList
  mobileMenuToggle : Option ClassList
deriving DecidableEq

/-- Whether an element exists and has the class `active`. -/
def hasActive (el : Option ClassList) : Bool :=
  match el with
  | none => false
  | some l => ClassList.contains l "active"

/-- A class list in which `active`, when present, is the last token and occurs
once: the shape every list has that starts without `active` and is only
changed by the two click handlers. -/
def ActiveLast (l : ClassList) : Prop :=
  "active" ∉ l ∨ ∃ l0 : ClassList, "active" ∉ l0 ∧ l = l0 ++ ["active"]

/-- The invariant of the menu: both elements agree on `active`, and each class
list keeps `active` last. -/
def MenuInv (m : MenuState) : Prop :=
  hasActive m.navLinks = hasActive m.mobileMenuToggle
  ∧ (∀ l, m.navLinks = some l → ActiveLast l)
  ∧ (∀ l, m.mobileMenuToggle = some l → ActiveLast l)

/-- The click listener of `.mobile-menu-toggle`.  It is registered only when
the toggle exists; with no `.nav-links` the first statement throws and the
second is not reached. -/
def toggleClick (m : MenuState) : MenuState :=
  match m.mobileMenuToggle with
  | none => m
  | some toggle =>
    match m.navLinks with
    | none => m
    | some links =>
      { navLinks := some (ClassList.toggle links "active"),
        mobileMenuToggle := some (ClassList.toggle toggle "active") }

/-- Outcome of `document.querySelector(href)`: an element (with its
`offsetTop`), `null`, or a `SyntaxError` for a string that is no selector. -/
inductive QueryResult where
  | found (offsetTop : ℤ)
  | notFound
  | syntaxError
deriving DecidableEq

/-- The part of the document the anchor click handler reads: what every
selector string selects and the `offsetHeight` of `.navbar` (`none` when the
page has no such element). -/
structure Page where
  querySelector : String → QueryResult
  navbar : Option ℤ

/-- The argument of `window.scrollTo`. -/
structure ScrollToOptions where
  top : ℤ
  behavior : String
deriving DecidableEq

/-- Everything one anchor click does. -/
structure ClickOutcome where
  defaultPrevented : Bool
  scrollTo : Option ScrollToOptions
  menu : MenuState
deriving DecidableEq

/-- The click listener of an `a[href^="#"]` anchor whose `href` attribute is
`href`.  A throwing `querySelector` or a missing navbar ends the handler after
`preventDefault`. -/
def anchorClick (page : Page) (href : String) (m : MenuState) : ClickOutcome :=
  if href ≠ "#" ∧ href ≠ "#contact" then
    match page.querySelector href with
    | QueryResult.syntaxError => { defaultPrevented := true, scrollTo := none, menu := m }
    | QueryResult.notFound => { defaultPrevented := true, scrollTo := none, menu := m }
    | QueryResult.found offsetTop =>
      match page.navbar with
      | none => { defaultPrevented := true, scrollTo := none, menu := m }
      | some navbarHeight =>
        let targetPosition := offsetTop - navbarHeight
        { defaultPrevented := true,
          scrollTo := some { top := targetPosition, behavior := "smooth" },
          menu :=
            { navLinks := m.navLinks.map (fun l => ClassList.remove l "active"),
              mobileMenuToggle :=
                m.mobileMenuToggle.map (fun l => ClassList.remove l "active") } }
  else
    { defaultPrevented := false, scrollTo := none, menu := m }

/-- A click on the menu toggle or on an in-page anchor. -/
inductive MenuEvent where
  | toggle
  | anchor (page : Page) (href : String)

/-- The menu after one click. -/
def menuStep (m : MenuState) (e : MenuEvent) : MenuState :=
  match e with
  | MenuEvent.toggle => toggleClick m
  | MenuEvent.anchor page href => (anchorClick page href m).menu

/-- The menu after a sequence of clicks, oldest first. -/
def runMenu (events : List MenuEvent) (m : MenuState) : MenuState :=
  events.foldl menuStep m

/-- A page with sections `#about` (at 900px) and `#features`, a 64px navbar. -/
def samplePage : Page :=
  { querySelector := fun sel =>
      if sel = "#about" then QueryResult.found 900
      else if sel = "#features" then QueryResult.found 1700
      else if sel = "#1" then QueryResult.syntaxError
      else QueryResult.notFound,
    navbar := some 64 }

/-! ## Intersection observers (lines 28-43 and 151-169) -/

/-- An `IntersectionObserverEntry`: the observed element (by identity) and
whether it is intersecting. -/
structure Entry where
  target : ℕ
  isIntersecting : Bool
deriving DecidableEq

/-- The two attributes of an `<img>` the lazy loader touches; `none` is an
absent attribute (`img.dataset.src` is then `undefined`). -/
structure Img where
  src : Option String
  dataSrc : Option String
deriving DecidableEq

/-- The images of the page, the set observed by `imageObserver`, and the
history of the assignments `img.src = img.dataset.src` (image, value). -/
structure LazyState where
  images : ℕ → Img
  observed : List ℕ
  assigned : List (ℕ × String)

/-- The body of `entries.forEach` in the `imageObserver` callback.  A
`data-src` that is absent or empty is falsy. -/
def imageEntry (s : LazyState) (entry : Entry) : LazyState :=
  if entry.isIntersecting then
    let img := entry.target
    match (s.images img).dataSrc with
    | none => s
    | some url =>
      if url ≠ "" then
        { images := Function.update s.images img { src := some url, dataSrc := none },
          observed := s.observed.filter (fun j => decide (j ≠ img)),
          assigned := s.assigned ++ [(img, url)] }
      else s
  else s

/-- One invocation of the `imageObserver` callback. -/
def imageObserverCallback (s : LazyState) (entries : List Entry) : LazyState :=
  entries.foldl imageEntry s

/-- A sequence of invocations of the `imageObserver` callback. -/
def runImageObserver (callbacks : List (List Entry)) (s : LazyState) : LazyState :=
  callbacks.foldl imageObserverCallback s

/-- How many times `src` of image `i` has been assigned from `data-src`. -/
def srcAssignments (s : LazyState) (i : ℕ) : ℕ :=
  s.assigned.countP (fun a => decide (a.1 = i))

/-- A page with one lazy image, number 0. -/
def sampleLazy : LazyState :=
  { images := fun i => if i = 0 then { src := none, dataSrc := some "hero.jpg" }
                       else { src := none, dataSrc := none },
    observed := [0],
    assigned := [] }

/-- The static structure of the document seen by the scroll observer: for each
element, the result of `querySelectorAll('[data-target], [data-count]')` on
it, that is the counters among its descendants, in document order. -/
structure Dom where
  counters : ℕ → List ℕ

/-- The class list of every element and the history of the calls
`animateCounter(counter)` made by the observer callback, oldest first. -/
structure ObserverState where
  classes : ℕ → ClassList
  started : List ℕ

/-- The body of `counters.forEach` (lines 35-40). -/
def startCounter (s : ObserverState) (counter : ℕ) : ObserverState :=
  if !(ClassList.contains (s.classes counter) "animated") then
    { classes := Function.update s.classes counter
        (ClassList.add (s.classes counter) "animated"),
      started := s.started ++ [counter] }
  else s

/-- The body of `entries.forEach` in the scroll observer callback (lines 29-42). -/
def observerEntry (dom : Dom) (s : ObserverState) (entry : Entry) : ObserverState :=
  if entry.isIntersecting then
    let faded : ObserverState :=
      { s with
        classes :=
          Function.update s.classes entry.target
            (ClassList.add (s.classes entry.target) "fade-in") }
    (dom.counters entry.target).foldl startCounter faded
  else s

/-- One invocation of the scroll observer callback. -/
def observerCallback (dom : Dom) (s : ObserverState) (entries : List Entry) : ObserverState :=
  entries.foldl (observerEntry dom) s

/-- A sequence of invocations of the scroll observer callback. -/
def runObserver (dom : Dom) (callbacks : List (List Entry)) (s : ObserverState) :
    ObserverState :=
  callbacks.foldl (observerCallback dom) s

/-- Whether the counter carries the class `animated`. -/
def isAnimated (s : ObserverState) (counter : ℕ) : Prop :=
  "animated" ∈ s.classes counter

/-- How many times the observer callback has called `animateCounter` on the counter. -/
def timesStarted (s : ObserverState) (counter : ℕ) : ℕ :=
  s.started.count counter

/-- A section (element 0) holding one counter (element 1). -/
def sampleDom : Dom :=
  { counters := fun el => if el = 0 then [1] else [] }

/-- The sample section as served, the counter carrying only `stat-number`. -/
def sampleFresh : ObserverState :=
  { classes := fun el => if el = 0 then ["section"] else ["stat-number"],
    started := [] }

/-- The sample section with a counter whose markup already has the class
`animated`. -/
def sampleMarked : ObserverState :=
  { classes := fun el => if el = 0 then ["section"] else ["stat-number", "animated"],
    started := [] }

/-! ## Debounce (lines 138-149) -/

/-- A timer scheduled by `setTimeout(later, wait)`: its id, the time (ms) at
which it is due, and the `args` captured by its `later` closure. -/
structure Timer (α : Type) where
  id : ℕ
  due : ℕ
  args : α

/-- The closure variable `timeout` of one debounced function, the timers it has
scheduled that are still pending, the next timer id the browser hands out, and
the history of the calls `func(...args)` (time, arguments), oldest first. -/
structure DebounceState (α : Type) where
  timeout : Option ℕ
  pending : List (Timer α)
  nextId : ℕ
  invoked : List (ℕ × α)

/-- The state of the closure that `debounce(func, wait)` returns: `timeout` is
undefined, nothing is scheduled, `func` has not been called. -/
def debounce (α : Type) : DebounceState α :=
  { timeout := none, pending := [], nextId := 1, invoked := [] }

/-- `clearTimeout(id)`: cancels the pending timer with that id, if any. -/
def clearTimeout {α : Type} (id : Option ℕ) (pending : List (Timer α)) : List (Timer α) :=
  pending.filter (fun t => decide (some t.id ≠ id))

/-- A call `executedFunction(...args)` at time `now`: the pending timer is
cancelled and a new one is scheduled `wait` ms ahead; `func` is not called. -/
def executedFunction {α : Type} (wait now : ℕ) (args : α) (s : DebounceState α) :
    DebounceState α :=
  { timeout := some s.nextId,
    pending := clearTimeout s.timeout s.pending
      ++ [{ id := s.nextId, due := now + wait, args := args }],
    nextId := s.nextId + 1,
    invoked := s.invoked }

/-- The closure `later` of timer `t`, run when the timer fires at `t.due`:
`clearTimeout(timeout)` and then `func(...args)`. -/
def later {α : Type} (t : Timer α) (s : DebounceState α) : DebounceState α :=
  { s with
    pending := clearTimeout s.timeout s.pending,
    invoked := s.invoked ++ [(t.due, t.args)] }

/-- The pending timer that is due first (the oldest one among equals). -/
def nextDue {α : Type} (pending : List (Timer α)) : Option (Timer α) :=
  pending.foldl
    (fun best t =>
      match best with
      | none => some t
      | some b => if t.due < b.due then some t else some b)
    none

/-- The event loop firing timers that are due at or before `upTo`, earliest
first; a fired timer leaves the pending list before its callback runs.  Each
round removes a timer, so `fuel = pending.length` rounds fire them all. -/
def fireTimers {α : Type} : ℕ → ℕ → DebounceState α → DebounceState α
  | 0, _, s => s
  | fuel + 1, upTo, s =>
    match nextDue s.pending with
    | none => s
    | some t =>
      if t.due ≤ upTo then
        fireTimers fuel upTo
          (later t { s with pending := s.pending.filter (fun u => decide (u.id ≠ t.id)) })
      else s

/-- Letting time run up to `upTo`. -/
def advance {α : Type} (upTo : ℕ) (s : DebounceState α) : DebounceState α :=
  fireTimers s.pending.length upTo s

/-- A sequence of calls `(time, args)` to the debounced function, oldest first,
time running between them. -/
def runDebounce {α : Type} (wait : ℕ) (calls : List (ℕ × α)) (s : DebounceState α) :
    DebounceState α :=
  calls.foldl (fun st c => executedFunction wait c.1 c.2 (advance c.1 st)) s

/-- A burst: each call arrives no earlier than, and less than `wait` ms after,
the previous one. -/
def Burst {α : Type} (wait : ℕ) (calls : List (ℕ × α)) : Prop :=
  List.Chain' (fun p q => p.1 ≤ q.1 ∧ q.1 < p.1 + wait) calls

/-- The debounced function has exactly one timer pending, the one named by
`timeout`, due `wait` ms after the call `c`, carrying the arguments of `c`. -/
def Armed {α : Type} (wait : ℕ) (c : ℕ × α) (s : DebounceState α) : Prop :=
  ∃ id, s.timeout = some id ∧ s.pending = [{ id := id, due := c.1 + wait, args := c.2 }]

/-! ## Counter animation in binary64 arithmetic (lines 3-20)

JavaScript numbers are IEEE-754 binary64 values.  Every finite non-negative
binary64 value is a whole multiple of `2^-1074` (the smallest subnormal), so it
is kept as that multiple, a natural number of *units*: `1` is `5e-324`,
`2^1074` is `1.0`, and the finite values are the `m * 2^e` with `m < 2^53`
below `2^2098` units (`2^1024`).  A parsed target greater than 0 and the
running value built from it never leave the non-negative numbers and
`Infinity`, which is all this model holds. -/

namespace Binary64

/-- A non-negative JavaScript number: a finite value, in units of `2^-1074`,
or `Infinity`. -/
inductive Num where
  | fin (units : ℕ)
  | inf
deriving DecidableEq

/-- The number `1.0` in units. -/
def one : ℕ := 2 ^ 1074

/-- A number of units that is a finite binary64 value: below `2^1024` and
with at most 53 significant bits. -/
def representable (n : ℕ) : Prop :=
  n < 2 ^ 2098 ∧ n % 2 ^ (Nat.log2 n - 52) = 0

/-- The nearest whole quotient of `num / d`, a tie going to the even one. -/
def roundQuot (num d : ℕ) : ℕ :=
  if 2 * (num % d) < d then num / d
  else if d < 2 * (num % d) then num / d + 1
  else if (num / d) % 2 = 0 then num / d
  else num / d + 1

/-- Rounding of the exact value `num / den` units to the nearest binary64 value,
ties to even: the spacing of the binary64 values at a value with whole part
`q0` is `2 ^ (log2 q0 - 52)` units (one unit below `2^53` units), and a result
from `2^1024` on is `Infinity`. -/
def roundUnits (num den : ℕ) : Num :=
  let s := Nat.log2 (num / den) - 52
  let v := roundQuot num (den * 2 ^ s) * 2 ^ s
  if v < 2 ^ 2098 then Num.fin v else Num.inf

/-- The sum `a + b`. -/
def add (a b : Num) : Num :=
  match a, b with
  | Num.fin x, Num.fin y => roundUnits (x + y) 1
  | _, _ => Num.inf

/-- The quotient `a / n` by a positive whole number `n` (itself a binary64
value, as `60` is). -/
def divBy (a : Num) (n : ℕ) : Num :=
  match a with
  | Num.fin x => roundUnits x n
  | Num.inf => Num.inf

/-- The comparison `a >= b`. -/
def ge (a b : Num) : Bool :=
  match a, b with
  | Num.inf, _ => true
  | Num.fin _, Num.inf => false
  | Num.fin x, Num.fin y => decide (y ≤ x)

/-- `x % 1 === 0` (`Infinity % 1` is `NaN`). -/
def isWhole (x : Num) : Bool :=
  match x with
  | Num.fin u => decide (u % one = 0)
  | Num.inf => false

/-- `Math.floor(x)`. -/
def floor (x : Num) : Num :=
  match x with
  | Num.fin u => Num.fin (u / one * one)
  | Num.inf => Num.inf

/-- The text of a counter element: what the markup had, a number assigned to
`textContent` (shown as its string), or a string made by `toFixed(1)`, the
decimal numeral `tenths / 10` with one fraction digit. -/
inductive Shown where
  | original
  | number (value : Num)
  | fixed1 (tenths : ℕ)
deriving DecidableEq

/-- `x.toFixed(1)`: the integer `n` with `n / 10` nearest the exact value of
`x`, the larger one on a tie; from `10^21` on, and for `Infinity`, the plain
string of the number. -/
def toFixed1 (x : Num) : Shown :=
  match x with
  | Num.fin u =>
    if 10 ^ 21 * one ≤ u then Shown.number (Num.fin u)
    else Shown.fixed1 ((20 * u + one) / (2 * one))
  | Num.inf => Shown.number Num.inf

/-- `const steps = 60`. -/
def steps : ℕ := 60

/-- `const increment = target / steps`. -/
def increment (target : Num) : Num := divBy target steps

/-- The variable `current`, the element's text, and whether
`clearInterval(timer)` has been called. -/
structure CounterState where
  current : Num
  textContent : Shown
  cleared : Bool
deriving DecidableEq

/-- State when `animateCounter(element)` returns: `current = 0`, the interval
scheduled, the text untouched. -/
def animateCounter : CounterState :=
  { current := Num.fin 0, textContent := Shown.original, cleared := false }

/-- The text written on the stopping tick (line 14). -/
def finalText (target : Num) : Shown :=
  if isWhole target then Shown.number target else toFixed1 target

/-- One tick of the interval (lines 11-19); a cleared interval fires no more. -/
def timerCallback (target : Num) (s : CounterState) : CounterState :=
  if s.cleared then s
  else
    let current := add s.current (increment target)
    if ge current target then
      { current := current, textContent := finalText target, cleared := true }
    else
      { current := current,
        textContent :=
          if isWhole current then Shown.number (floor current) else toFixed1 current,
        cleared := false }

/-- The state after `k` ticks of the interval. -/
def afterTicks (target : Num) (k : ℕ) : CounterState :=
  (timerCallback target)^[k] animateCounter

/-- The whole part of the base-2 logarithm by repeated halving, at most `fuel`
times, counting from `acc`: for `n < 2 ^ fuel` it is `acc + Nat.log2 n`. -/
def log2Fuel : ℕ → ℕ → ℕ → ℕ
  | 0, _, acc => acc
  | fuel + 1, n, acc => if n < 2 then acc else log2Fuel fuel (n / 2) (acc + 1)

/-- The running value `n` ticks after the running value `c`, for increment
`inc` and target `t`, when each of these ticks leaves the sum below the
target (so that none of them stops the interval); `none` otherwise. -/
def runningAfter (t inc : ℕ) : ℕ → ℕ → Option ℕ
  | 0, c => some c
  | n + 1, c =>
    if roundQuot (c + inc) (2 ^ (log2Fuel 2100 (c + inc) 0 - 52))
        * 2 ^ (log2Fuel 2100 (c + inc) 0 - 52) < t then
      runningAfter t inc n
        (roundQuot (c + inc) (2 ^ (log2Fuel 2100 (c + inc) 0 - 52))
          * 2 ^ (log2Fuel 2100 (c + inc) 0 - 52))
    else none

/-- The running value `c` after `k` ticks is within `k * t / 2^52` of `k` times
the increment `inc`. -/
def Near (t inc k c : ℕ) : Prop :=
  2 ^ 52 * c ≤ 2 ^ 52 * (k * inc) + k * t ∧ 2 ^ 52 * (k * inc) ≤ 2 ^ 52 * c + k * t

end Binary64

/-! # Theorems -/

/-! ## Scroll listener -/

theorem runScroll_append (pre : List ℚ) (y : ℚ) (s : ScrollState) :
    runScroll (pre ++ [y]) s = scrollListener y (runScroll pre s) := by
  simp [runScroll, List.foldl_append]

/-- C5: after any non-empty sequence of scroll events (`earlier` followed by a
last event at offset `y`), from any prior navbar style and any `lastScroll`,
the navbar carries the scrolled style when `y > 100` and the resting style
when `y ≤ 100`. -/
theorem scroll_style_reflects_last_event (earlier : List ℚ) (y : ℚ) (s : ScrollState) :
    (runScroll (earlier ++ [y]) s).navbar =
      (if 100 < y then
        { background := "rgba(255, 255, 255, 0.98)",
          boxShadow := "0 4px 16px rgba(26, 35, 50, 0.12)" }
      else
        { background := "rgba(255, 255, 255, 0.95)",
          boxShadow := "0 2px 8px rgba(26, 35, 50, 0.08)" }) := by
  rw [runScroll_append]
  unfold scrollListener
  by_cases h : y > 100
  · simp [h]
  · simp [h]

/-! ## Mousemove listener -/

theorem mousemoveListener_length (e : MouseMove) (orbs : List (Option Translate)) :
    (mousemoveListener e orbs).length = orbs.length := by
  simp [mousemoveListener]

theorem runMouse_length (events : List MouseMove) (orbs : List (Option Translate)) :
    (runMouse events orbs).length = orbs.length := by
  induction events generalizing orbs with
  | nil => rfl
  | cons e es ih =>
    show (runMouse es (mousemoveListener e orbs)).length = orbs.length
    rw [ih, mousemoveListener_length]

theorem runMouse_append (pre : List MouseMove) (e : MouseMove)
    (orbs : List (Option Translate)) :
    runMouse (pre ++ [e]) orbs = mousemoveListener e (runMouse pre orbs) := by
  simp [runMouse, List.foldl_append]

theorem half_scaled_abs_le (t s : ℚ) (h0 : 0 ≤ t) (h1 : t ≤ 1) (hs : 0 ≤ s) :
    |(t - 0.5) * (s * 20)| ≤ 10 * s := by
  rw [abs_le]
  constructor <;> nlinarith

/-- C7: after any sequence of mousemove events ending in `e` (viewport of
positive width and height), orb number `index` carries the translation
`((clientX/innerWidth - 0.5) * 20*(index+1), (clientY/innerHeight - 0.5) * 20*(index+1))`
computed from `e` alone, whatever the earlier events and earlier transforms;
a pointer at the centre gives `(0, 0)`; a pointer inside the window gives
`|x| ≤ 10*(index+1)` and `|y| ≤ 10*(index+1)`. -/
theorem parallax_translation (earlier : List MouseMove) (e : MouseMove)
    (orbs : List (Option Translate)) (index : ℕ) (hidx : index < orbs.length)
    (hw : 0 < e.window.innerWidth) (hh : 0 < e.window.innerHeight) :
    (runMouse (earlier ++ [e]) orbs)[index]? =
        some (some
          { x := (e.clientX / e.window.innerWidth - 0.5) * (20 * ((index : ℚ) + 1)),
            y := (e.clientY / e.window.innerHeight - 0.5) * (20 * ((index : ℚ) + 1)) })
    ∧ (e.clientX = e.window.innerWidth / 2 → e.clientY = e.window.innerHeight / 2 →
        (runMouse (earlier ++ [e]) orbs)[index]? = some (some { x := 0, y := 0 }))
    ∧ (0 ≤ e.clientX → e.clientX ≤ e.window.innerWidth →
        0 ≤ e.clientY → e.clientY ≤ e.window.innerHeight →
        |(orbTransform e index).x| ≤ 10 * ((index : ℚ) + 1)
        ∧ |(orbTransform e index).y| ≤ 10 * ((index : ℚ) + 1)) := by
  have hlen : index < (runMouse earlier orbs).length := by
    rw [runMouse_length]; exact hidx
  have hget : (runMouse (earlier ++ [e]) orbs)[index]? = some (some (orbTransform e index)) := by
    rw [runMouse_append]
    simp [mousemoveListener, List.getElem?_map, List.getElem?_range hlen]
  refine ⟨?_, ?_, ?_⟩
  · rw [hget]
    simp only [orbTransform, Option.some.injEq, Translate.mk.injEq]
    constructor <;> ring
  · intro hx hy
    rw [hget]
    simp only [orbTransform, Option.some.injEq, Translate.mk.injEq, hx, hy]
    constructor
    · field_simp; ring
    · field_simp; ring
  · intro hx0 hx1 hy0 hy1
    have hi : (0 : ℚ) ≤ (index : ℚ) + 1 := by positivity
    constructor
    · exact half_scaled_abs_le _ _ (div_nonneg hx0 hw.le) ((div_le_one hw).2 hx1) hi
    · exact half_scaled_abs_le _ _ (div_nonneg hy0 hh.le) ((div_le_one hh).2 hy1) hi

/-- Witness for C7: a 1920x1080 viewport with the pointer at its centre, two
orbs; orb number 1 gets the translation `(0, 0)`. -/
theorem parallax_translation_witness :
    (runMouse ([] ++ [{ clientX := 960, clientY := 540,
                        window := { innerWidth := 1920, innerHeight := 1080 } }])
        [none, none])[1]? = some (some { x := 0, y := 0 }) :=
  (parallax_translation []
    { clientX := 960, clientY := 540, window := { innerWidth := 1920, innerHeight := 1080 } }
    [none, none] 1 (by decide) (by norm_num) (by norm_num)).2.1
    (by norm_num) (by norm_num)

/-! ## Class lists -/

theorem remove_not_mem (l : ClassList) (t : String) : t ∉ ClassList.remove l t := by
  simp [ClassList.remove, List.mem_filter]

theorem remove_of_not_mem (l : ClassList) (t : String) (h : t ∉ l) :
    ClassList.remove l t = l := by
  unfold ClassList.remove
  rw [List.filter_eq_self]
  intro a ha
  have : a ≠ t := fun hat => h (hat ▸ ha)
  simpa using this

theorem remove_append_singleton (l : ClassList) (t : String) (h : t ∉ l) :
    ClassList.remove (l ++ [t]) t = l := by
  have h1 : ClassList.remove (l ++ [t]) t = ClassList.remove l t ++ ClassList.remove [t] t := by
    simp [ClassList.remove, List.filter_append]
  rw [h1, remove_of_not_mem l t h]
  simp [ClassList.remove]

theorem hasActive_map_remove (el : Option ClassList) :
    hasActive (el.map (fun l => ClassList.remove l "active")) = false := by
  cases el with
  | none => rfl
  | some l => simp [hasActive, ClassList.contains, remove_not_mem]

theorem activeLast_toggle (l : ClassList) (h : ActiveLast l) :
    ActiveLast (ClassList.toggle l "active") := by
  rcases h with h | ⟨l0, h0, rfl⟩
  · right
    exact ⟨l, h, by simp [ClassList.toggle, h]⟩
  · left
    have hm : "active" ∈ l0 ++ ["active"] := by simp
    simp only [ClassList.toggle, hm, if_true]
    exact remove_not_mem _ _

theorem activeLast_remove (l : ClassList) : ActiveLast (ClassList.remove l "active") :=
  Or.inl (remove_not_mem _ _)

theorem toggle_toggle (l : ClassList) (h : ActiveLast l) :
    ClassList.toggle (ClassList.toggle l "active") "active" = l := by
  rcases h with h | ⟨l0, h0, rfl⟩
  · have hm : "active" ∈ l ++ ["active"] := by simp
    simp only [ClassList.toggle, h, if_false, hm, if_true]
    exact remove_append_singleton l _ h
  · have hm : "active" ∈ l0 ++ ["active"] := by simp
    simp only [ClassList.toggle, hm, if_true]
    rw [remove_append_singleton l0 _ h0]
    simp [h0]

theorem contains_toggle (l : ClassList) :
    ClassList.contains (ClassList.toggle l "active") "active"
      = !ClassList.contains l "active" := by
  by_cases h : "active" ∈ l
  · simp [ClassList.toggle, ClassList.contains, h, remove_not_mem]
  · simp [ClassList.toggle, ClassList.contains, h]

/-! ## Menu toggle and anchor clicks -/

theorem activeLast_of_not_active (l : ClassList)
    (h : hasActive (some l) = false) : ActiveLast l := by
  left
  simpa [hasActive, ClassList.contains] using h

theorem menuInv_init (m : MenuState) (hn : hasActive m.navLinks = false)
    (ht : hasActive m.mobileMenuToggle = false) : MenuInv m := by
  refine ⟨by rw [hn, ht], ?_, ?_⟩
  · intro l hl
    rw [hl] at hn
    exact activeLast_of_not_active l hn
  · intro l hl
    rw [hl] at ht
    exact activeLast_of_not_active l ht

theorem menuInv_toggleClick (m : MenuState) (h : MenuInv m) : MenuInv (toggleClick m) := by
  obtain ⟨heq, hn, ht⟩ := h
  rcases m with ⟨_ | links, _ | toggle⟩
  · exact ⟨heq, hn, ht⟩
  · exact ⟨heq, hn, ht⟩
  · exact ⟨heq, hn, ht⟩
  · refine ⟨?_, ?_, ?_⟩
    · simp only [toggleClick, hasActive, contains_toggle]
      simp only [hasActive] at heq
      rw [heq]
    · intro l hl
      simp only [toggleClick, Option.some.injEq] at hl
      subst hl
      exact activeLast_toggle _ (hn links rfl)
    · intro l hl
      simp only [toggleClick, Option.some.injEq] at hl
      subst hl
      exact activeLast_toggle _ (ht toggle rfl)

theorem menuInv_closed (m : MenuState) :
    MenuInv { navLinks := m.navLinks.map (fun l => ClassList.remove l "active"),
              mobileMenuToggle := m.mobileMenuToggle.map (fun l => ClassList.remove l "active") } := by
  refine ⟨?_, ?_, ?_⟩
  · simp only [hasActive_map_remove]
  · intro l hl
    cases hm : m.navLinks with
    | none => simp [hm] at hl
    | some l0 =>
      simp only [hm, Option.map_some', Option.some.injEq] at hl
      subst hl
      exact activeLast_remove _
  · intro l hl
    cases hm : m.mobileMenuToggle with
    | none => simp [hm] at hl
    | some l0 =>
      simp only [hm, Option.map_some', Option.some.injEq] at hl
      subst hl
      exact activeLast_remove _

theorem anchorClick_menu (page : Page) (href : String) (m : MenuState) :
    (anchorClick page href m).menu = m
    ∨ (anchorClick page href m).menu =
        { navLinks := m.navLinks.map (fun l => ClassList.remove l "active"),
          mobileMenuToggle := m.mobileMenuToggle.map (fun l => ClassList.remove l "active") } := by
  unfold anchorClick
  split
  · split
    · exact Or.inl rfl
    · exact Or.inl rfl
    · split
      · exact Or.inl rfl
      · exact Or.inr rfl
  · exact Or.inl rfl

theorem menuInv_step (m : MenuState) (e : MenuEvent) (h : MenuInv m) :
    MenuInv (menuStep m e) := by
  cases e with
  | toggle => exact menuInv_toggleClick m h
  | anchor page href =>
    show MenuInv (anchorClick page href m).menu
    rcases anchorClick_menu page href m with h1 | h1
    · rw [h1]; exact h
    · rw [h1]; exact menuInv_closed m

theorem menuInv_run (events : List MenuEvent) (m : MenuState) (h : MenuInv m) :
    MenuInv (runMenu events m) := by
  induction events generalizing m with
  | nil => exact h
  | cons e es ih => exact ih (menuStep m e) (menuInv_step m e h)

theorem menuStep_exists (m : MenuState) (e : MenuEvent) :
    ((menuStep m e).navLinks = none ↔ m.navLinks = none)
    ∧ ((menuStep m e).mobileMenuToggle = none ↔ m.mobileMenuToggle = none) := by
  cases e with
  | toggle =>
    rcases m with ⟨_ | links, _ | toggle⟩ <;> simp [menuStep, toggleClick]
  | anchor page href =>
    show ((anchorClick page href m).menu.navLinks = none ↔ _)
      ∧ ((anchorClick page href m).menu.mobileMenuToggle = none ↔ _)
    rcases anchorClick_menu page href m with h1 | h1
    · rw [h1]; exact ⟨Iff.rfl, Iff.rfl⟩
    · rw [h1]; simp

theorem runMenu_exists (events : List MenuEvent) (m : MenuState) :
    ((runMenu events m).navLinks = none ↔ m.navLinks = none)
    ∧ ((runMenu events m).mobileMenuToggle = none ↔ m.mobileMenuToggle = none) := by
  induction events generalizing m with
  | nil => exact ⟨Iff.rfl, Iff.rfl⟩
  | cons e es ih =>
    have h1 := ih (menuStep m e)
    have h2 := menuStep_exists m e
    exact ⟨h1.1.trans h2.1, h1.2.trans h2.2⟩

/-- C8: from a page whose `.nav-links` and `.mobile-menu-toggle` both lack the
class `active`, after any sequence of toggle clicks and anchor clicks the nav
links have `active` exactly when the toggle has it; a further toggle click
flips `active` on both, and two consecutive toggle clicks give back the very
same state. -/
theorem menu_synchronised (links toggle : ClassList) (events : List MenuEvent)
    (hl : "active" ∉ links) (ht : "active" ∉ toggle) :
    hasActive (runMenu events { navLinks := some links, mobileMenuToggle := some toggle }).navLinks
      = hasActive
          (runMenu events { navLinks := some links, mobileMenuToggle := some toggle }).mobileMenuToggle
    ∧ hasActive (toggleClick
          (runMenu events { navLinks := some links, mobileMenuToggle := some toggle })).navLinks
        = !hasActive
            (runMenu events { navLinks := some links, mobileMenuToggle := some toggle }).navLinks
    ∧ hasActive (toggleClick
          (runMenu events
            { navLinks := some links, mobileMenuToggle := some toggle })).mobileMenuToggle
        = !hasActive
            (runMenu events
              { navLinks := some links, mobileMenuToggle := some toggle }).mobileMenuToggle
    ∧ toggleClick (toggleClick
          (runMenu events { navLinks := some links, mobileMenuToggle := some toggle }))
        = runMenu events { navLinks := some links, mobileMenuToggle := some toggle } := by
  have hinv := menuInv_run events { navLinks := some links, mobileMenuToggle := some toggle }
    (menuInv_init _ (by simpa [hasActive, ClassList.contains] using hl)
      (by simpa [hasActive, ClassList.contains] using ht))
  have hex := runMenu_exists events { navLinks := some links, mobileMenuToggle := some toggle }
  generalize runMenu events { navLinks := some links, mobileMenuToggle := some toggle } = m
    at hinv hex
  obtain ⟨heq, hnl, htl⟩ := hinv
  refine ⟨heq, ?_⟩
  rcases m with ⟨_ | links1, _ | toggle1⟩
  · exact absurd (hex.1.1 rfl) (by simp)
  · exact absurd (hex.1.1 rfl) (by simp)
  · exact absurd (hex.2.1 rfl) (by simp)
  · refine ⟨?_, ?_, ?_⟩
    · simp only [toggleClick, hasActive, contains_toggle]
    · simp only [toggleClick, hasActive, contains_toggle]
    · simp only [toggleClick]
      rw [toggle_toggle links1 (hnl links1 rfl), toggle_toggle toggle1 (htl toggle1 rfl)]

/-- Witness for C8: a menu opened by one toggle click and closed again by a
click on the `#about` anchor; two further toggle clicks give the same state. -/
theorem menu_synchronised_witness :
    toggleClick (toggleClick
        (runMenu [MenuEvent.toggle, MenuEvent.anchor samplePage "#about"]
          { navLinks := some ["nav-links"], mobileMenuToggle := some ["mobile-menu-toggle"] }))
      = runMenu [MenuEvent.toggle, MenuEvent.anchor samplePage "#about"]
          { navLinks := some ["nav-links"], mobileMenuToggle := some ["mobile-menu-toggle"] } :=
  (menu_synchronised ["nav-links"] ["mobile-menu-toggle"]
    [MenuEvent.toggle, MenuEvent.anchor samplePage "#about"]
    (by decide) (by decide)).2.2.2

/-- C6: a click on an anchor whose `href` is `#` or `#contact` does nothing;
for any other `href` the default is prevented, and then: if the `href` selects
an element (the page having a navbar) the window is scrolled smoothly to
`offsetTop - navbar.offsetHeight` and `active` is removed from both menu
elements, every other class being kept; if it selects no element there is no
scroll and the menu is unchanged. -/
theorem anchor_click_effect (page : Page) (href : String) (m : MenuState) :
    ((href = "#" ∨ href = "#contact") →
        anchorClick page href m = { defaultPrevented := false, scrollTo := none, menu := m })
    ∧ (href ≠ "#" → href ≠ "#contact" →
        (anchorClick page href m).defaultPrevented = true
        ∧ (∀ offsetTop navbarHeight, page.querySelector href = QueryResult.found offsetTop →
            page.navbar = some navbarHeight →
            (anchorClick page href m).scrollTo
                = some { top := offsetTop - navbarHeight, behavior := "smooth" }
            ∧ hasActive (anchorClick page href m).menu.navLinks = false
            ∧ hasActive (anchorClick page href m).menu.mobileMenuToggle = false
            ∧ (anchorClick page href m).menu.navLinks
                = m.navLinks.map (fun l => l.filter (fun t => decide (t ≠ "active")))
            ∧ (anchorClick page href m).menu.mobileMenuToggle
                = m.mobileMenuToggle.map (fun l => l.filter (fun t => decide (t ≠ "active"))))
        ∧ ((∀ offsetTop, page.querySelector href ≠ QueryResult.found offsetTop) →
            (anchorClick page href m).scrollTo = none
            ∧ (anchorClick page href m).menu = m)) := by
  refine ⟨?_, ?_⟩
  · intro h
    have hc : ¬ (href ≠ "#" ∧ href ≠ "#contact") := by
      rcases h with h | h <;> simp [h]
    unfold anchorClick
    rw [if_neg hc]
  · intro h1 h2
    have hc : href ≠ "#" ∧ href ≠ "#contact" := ⟨h1, h2⟩
    unfold anchorClick
    rw [if_pos hc]
    cases hq : page.querySelector href with
    | syntaxError =>
      refine ⟨rfl, ?_, fun _ => ⟨rfl, rfl⟩⟩
      intro offsetTop navbarHeight hf
      exact absurd hf (by simp)
    | notFound =>
      refine ⟨rfl, ?_, fun _ => ⟨rfl, rfl⟩⟩
      intro offsetTop navbarHeight hf
      exact absurd hf (by simp)
    | found top =>
      cases hnav : page.navbar with
      | none =>
        refine ⟨rfl, ?_, fun hno => absurd rfl (hno top)⟩
        intro offsetTop navbarHeight _ hn
        exact absurd hn (by simp)
      | some height =>
        refine ⟨rfl, ?_, fun hno => absurd rfl (hno top)⟩
        intro offsetTop navbarHeight hf hn
        simp only [QueryResult.found.injEq, Option.some.injEq] at hf hn
        subst hf; subst hn
        exact ⟨rfl, hasActive_map_remove _, hasActive_map_remove _, rfl, rfl⟩

/-- Witness for C6: with the menu open, a click on `#about` (at 900px, navbar
64px high) scrolls to 836 and closes the menu. -/
theorem anchor_click_effect_witness :
    (anchorClick samplePage "#about"
        { navLinks := some ["nav-links", "active"],
          mobileMenuToggle := some ["mobile-menu-toggle", "active"] }).scrollTo
      = some { top := 836, behavior := "smooth" }
    ∧ (anchorClick samplePage "#about"
        { navLinks := some ["nav-links", "active"],
          mobileMenuToggle := some ["mobile-menu-toggle", "active"] }).menu
      = { navLinks := some ["nav-links"], mobileMenuToggle := some ["mobile-menu-toggle"] } := by
  have h := ((anchor_click_effect samplePage "#about"
      { navLinks := some ["nav-links", "active"],
        mobileMenuToggle := some ["mobile-menu-toggle", "active"] }).2
      (by decide) (by decide)).2.1 900 64 (by decide) rfl
  refine ⟨?_, ?_⟩
  · rw [h.1]; rfl
  · have hn := h.2.2.2.1
    have ht := h.2.2.2.2
    generalize (anchorClick samplePage "#about" _).menu = r at hn ht ⊢
    rcases r with ⟨n, t⟩
    simp only at hn ht
    subst hn; subst ht
    decide

/-! ## Lazy image loading -/

theorem imageEntry_not_intersecting (s : LazyState) (entry : Entry)
    (h : entry.isIntersecting = false) : imageEntry s entry = s := by
  simp [imageEntry, h]

theorem imageEntry_loaded (s : LazyState) (entry : Entry)
    (h : (s.images entry.target).dataSrc = none) : imageEntry s entry = s := by
  unfold imageEntry
  split
  · simp only [h]
  · rfl

theorem imageEntry_load (s : LazyState) (entry : Entry) (url : String)
    (hi : entry.isIntersecting = true) (hd : (s.images entry.target).dataSrc = some url)
    (hu : url ≠ "") :
    imageEntry s entry =
      { images := Function.update s.images entry.target { src := some url, dataSrc := none },
        observed := s.observed.filter (fun j => decide (j ≠ entry.target)),
        assigned := s.assigned ++ [(entry.target, url)] } := by
  simp only [imageEntry, hi, if_true, hd, hu, ne_eq, not_false_eq_true]

theorem imageEntry_cases (s : LazyState) (entry : Entry) :
    imageEntry s entry = s
    ∨ ∃ url, (s.images entry.target).dataSrc = some url ∧
        imageEntry s entry =
          { images := Function.update s.images entry.target { src := some url, dataSrc := none },
            observed := s.observed.filter (fun j => decide (j ≠ entry.target)),
            assigned := s.assigned ++ [(entry.target, url)] } := by
  cases hi : entry.isIntersecting with
  | false => exact Or.inl (imageEntry_not_intersecting s entry hi)
  | true =>
    cases hd : (s.images entry.target).dataSrc with
    | none => exact Or.inl (imageEntry_loaded s entry hd)
    | some url =>
      by_cases hu : url = ""
      · left
        simp only [imageEntry, hi, if_true, hd, hu, ne_eq, not_true_eq_false, if_false]
      · exact Or.inr ⟨url, rfl, imageEntry_load s entry url hi hd hu⟩

/-- One entry leaves the assignment count of image `i` alone, or raises it by
one and removes a `data-src` that was there; an image without `data-src`
stays so and its count is unchanged. -/
theorem imageEntry_count (s : LazyState) (entry : Entry) (i : ℕ) :
    ((s.images i).dataSrc = none →
        ((imageEntry s entry).images i).dataSrc = none
        ∧ srcAssignments (imageEntry s entry) i = srcAssignments s i)
    ∧ (srcAssignments (imageEntry s entry) i = srcAssignments s i
        ∨ (((imageEntry s entry).images i).dataSrc = none
            ∧ (s.images i).dataSrc ≠ none
            ∧ srcAssignments (imageEntry s entry) i = srcAssignments s i + 1)) := by
  rcases imageEntry_cases s entry with h | ⟨url, hd, h⟩
  · rw [h]
    exact ⟨fun h => ⟨h, rfl⟩, Or.inl rfl⟩
  · rw [h]
    by_cases hi : entry.target = i
    · subst hi
      refine ⟨fun h => ?_, Or.inr ⟨?_, ?_, ?_⟩⟩
      · rw [hd] at h; exact absurd h (by simp)
      · simp
      · rw [hd]; simp
      · simp [srcAssignments, List.countP_append]
    · have hne : i ≠ entry.target := fun h => hi h.symm
      have himg : Function.update s.images entry.target
          { src := some url, dataSrc := none } i = s.images i :=
        Function.update_noteq hne _ _
      have hcnt : List.countP (fun a => decide (a.1 = i))
          (s.assigned ++ [(entry.target, url)])
          = List.countP (fun a => decide (a.1 = i)) s.assigned := by
        simp [List.countP_append, hi]
      refine ⟨fun h => ⟨?_, ?_⟩, Or.inl ?_⟩
      · simp only [himg]; exact h
      · simp only [srcAssignments]; exact hcnt
      · simp only [srcAssignments]; exact hcnt

theorem imageObserverCallback_count (entries : List Entry) (s : LazyState) (i c0 : ℕ)
    (h : srcAssignments s i ≤ c0 + 1 ∧ ((s.images i).dataSrc ≠ none → srcAssignments s i ≤ c0)) :
    srcAssignments (imageObserverCallback s entries) i ≤ c0 + 1
    ∧ (((imageObserverCallback s entries).images i).dataSrc ≠ none →
        srcAssignments (imageObserverCallback s entries) i ≤ c0) := by
  induction entries generalizing s with
  | nil => exact h
  | cons e es ih =>
    apply ih (imageEntry s e)
    obtain ⟨hkeep, hstep⟩ := imageEntry_count s e i
    rcases hstep with heq | ⟨hnone, hsome, hinc⟩
    · rw [heq]
      refine ⟨h.1, fun hd => h.2 ?_⟩
      intro hn
      exact hd (hkeep hn).1
    · have := h.2 hsome
      exact ⟨by omega, fun hd => absurd hnone hd⟩

theorem runImageObserver_count (callbacks : List (List Entry)) (s : LazyState) (i c0 : ℕ)
    (h : srcAssignments s i ≤ c0 + 1 ∧ ((s.images i).dataSrc ≠ none → srcAssignments s i ≤ c0)) :
    srcAssignments (runImageObserver callbacks s) i ≤ c0 + 1
    ∧ (((runImageObserver callbacks s).images i).dataSrc ≠ none →
        srcAssignments (runImageObserver callbacks s) i ≤ c0) := by
  induction callbacks generalizing s with
  | nil => exact h
  | cons es rest ih => exact ih (imageObserverCallback s es) (imageObserverCallback_count es s i c0 h)

theorem imageObserverCallback_loaded (entries : List Entry) (s : LazyState) (i : ℕ)
    (h : (s.images i).dataSrc = none) :
    ((imageObserverCallback s entries).images i).dataSrc = none := by
  induction entries generalizing s with
  | nil => exact h
  | cons e es ih => exact ih (imageEntry s e) ((imageEntry_count s e i).1 h).1

theorem runImageObserver_loaded (callbacks : List (List Entry)) (s : LazyState) (i : ℕ)
    (h : (s.images i).dataSrc = none) :
    ((runImageObserver callbacks s).images i).dataSrc = none := by
  induction callbacks generalizing s with
  | nil => exact h
  | cons es rest ih => exact ih (imageObserverCallback s es) (imageObserverCallback_loaded es s i h)

/-- An entry that is not an intersecting entry for image `i` leaves image `i`
and its assignment count alone. -/
theorem imageEntry_miss (s : LazyState) (entry : Entry) (i : ℕ)
    (h : ¬ (entry.target = i ∧ entry.isIntersecting = true)) :
    (imageEntry s entry).images i = s.images i
    ∧ srcAssignments (imageEntry s entry) i = srcAssignments s i := by
  rcases imageEntry_cases s entry with h1 | ⟨url, hd, h1⟩
  · rw [h1]; exact ⟨rfl, rfl⟩
  · have hi : entry.isIntersecting = true := by
      cases hb : entry.isIntersecting with
      | true => rfl
      | false =>
        rw [imageEntry_not_intersecting s entry hb] at h1
        have := congrArg LazyState.assigned h1
        simp at this
    have hne : entry.target ≠ i := fun ht => h ⟨ht, hi⟩
    rw [h1]
    refine ⟨Function.update_noteq (Ne.symm hne) _ _, ?_⟩
    simp [srcAssignments, List.countP_append, hne]

/-- A loaded image (one without `data-src`) is left alone by every entry. -/
theorem imageEntry_keeps_loaded (s : LazyState) (entry : Entry) (i : ℕ)
    (h : (s.images i).dataSrc = none) :
    (imageEntry s entry).images i = s.images i
    ∧ srcAssignments (imageEntry s entry) i = srcAssignments s i := by
  by_cases ht : entry.target = i
  · subst ht
    rw [imageEntry_loaded s entry h]
    exact ⟨rfl, rfl⟩
  · exact imageEntry_miss s entry i (fun hh => ht hh.1)

/-- An image that is not observed stays so. -/
theorem imageEntry_unobserved (s : LazyState) (entry : Entry) (i : ℕ)
    (h : i ∉ s.observed) : i ∉ (imageEntry s entry).observed := by
  rcases imageEntry_cases s entry with h1 | ⟨url, _, h1⟩
  · rw [h1]; exact h
  · rw [h1]
    intro hm
    exact h (List.mem_filter.1 hm).1

theorem imageObserverCallback_miss (entries : List Entry) (s : LazyState) (i : ℕ)
    (h : ∀ x ∈ entries, ¬ (x.target = i ∧ x.isIntersecting = true)) :
    (imageObserverCallback s entries).images i = s.images i
    ∧ srcAssignments (imageObserverCallback s entries) i = srcAssignments s i := by
  induction entries generalizing s with
  | nil => exact ⟨rfl, rfl⟩
  | cons e es ih =>
    obtain ⟨h1, h2⟩ := imageEntry_miss s e i (h e (List.mem_cons_self _ _))
    obtain ⟨h3, h4⟩ := ih (imageEntry s e) (fun x hx => h x (List.mem_cons_of_mem _ hx))
    exact ⟨h3.trans h1, h4.trans h2⟩

theorem runImageObserver_miss (callbacks : List (List Entry)) (s : LazyState) (i : ℕ)
    (h : ∀ es ∈ callbacks, ∀ x ∈ es, ¬ (x.target = i ∧ x.isIntersecting = true)) :
    (runImageObserver callbacks s).images i = s.images i
    ∧ srcAssignments (runImageObserver callbacks s) i = srcAssignments s i := by
  induction callbacks generalizing s with
  | nil => exact ⟨rfl, rfl⟩
  | cons es rest ih =>
    obtain ⟨h1, h2⟩ := imageObserverCallback_miss es s i (h es (List.mem_cons_self _ _))
    obtain ⟨h3, h4⟩ := ih (imageObserverCallback s es)
      (fun es1 he => h es1 (List.mem_cons_of_mem _ he))
    exact ⟨h3.trans h1, h4.trans h2⟩

theorem imageObserverCallback_keeps_loaded (entries : List Entry) (s : LazyState) (i : ℕ)
    (h : (s.images i).dataSrc = none) (hobs : i ∉ s.observed) :
    (imageObserverCallback s entries).images i = s.images i
    ∧ srcAssignments (imageObserverCallback s entries) i = srcAssignments s i
    ∧ i ∉ (imageObserverCallback s entries).observed := by
  induction entries generalizing s with
  | nil => exact ⟨rfl, rfl, hobs⟩
  | cons e es ih =>
    obtain ⟨h1, h2⟩ := imageEntry_keeps_loaded s e i h
    obtain ⟨h3, h4, h5⟩ := ih (imageEntry s e) (by rw [h1]; exact h)
      (imageEntry_unobserved s e i hobs)
    exact ⟨h3.trans h1, h4.trans h2, h5⟩

theorem runImageObserver_keeps_loaded (callbacks : List (List Entry)) (s : LazyState) (i : ℕ)
    (h : (s.images i).dataSrc = none) (hobs : i ∉ s.observed) :
    (runImageObserver callbacks s).images i = s.images i
    ∧ srcAssignments (runImageObserver callbacks s) i = srcAssignments s i
    ∧ i ∉ (runImageObserver callbacks s).observed := by
  induction callbacks generalizing s with
  | nil => exact ⟨rfl, rfl, hobs⟩
  | cons es rest ih =>
    obtain ⟨h1, h2, h3⟩ := imageObserverCallback_keeps_loaded es s i h hobs
    obtain ⟨h4, h5, h6⟩ := ih (imageObserverCallback s es) (by rw [h1]; exact h) h3
    exact ⟨h4.trans h1, h5.trans h2, h6⟩

/-- Callbacks whose entries are all for images without `data-src`, or not
intersecting, change nothing at all. -/
theorem runImageObserver_idle (callbacks : List (List Entry)) (s : LazyState)
    (h : ∀ es ∈ callbacks, ∀ x ∈ es,
      x.isIntersecting = false ∨ (s.images x.target).dataSrc = none) :
    runImageObserver callbacks s = s := by
  induction callbacks with
  | nil => rfl
  | cons es rest ih =>
    have hes : imageObserverCallback s es = s := by
      have hall := h es (List.mem_cons_self _ _)
      clear ih h
      induction es with
      | nil => rfl
      | cons e es ihe =>
        have he : imageEntry s e = s := by
          rcases hall e (List.mem_cons_self _ _) with h1 | h1
          · exact imageEntry_not_intersecting s e h1
          · exact imageEntry_loaded s e h1
        show imageObserverCallback (imageEntry s e) es = s
        rw [he]
        exact ihe (fun x hx => hall x (List.mem_cons_of_mem _ hx))
    show runImageObserver rest (imageObserverCallback s es) = s
    rw [hes]
    exact ih (fun es1 he => h es1 (List.mem_cons_of_mem _ he))

theorem runImageObserver_split (earlier later : List (List Entry))
    (before after : List Entry) (e : Entry) (s : LazyState) :
    runImageObserver (earlier ++ [before ++ e :: after] ++ later) s
      = runImageObserver later
          (imageObserverCallback
            (imageEntry (imageObserverCallback (runImageObserver earlier s) before) e)
            after) := by
  simp [runImageObserver, imageObserverCallback, List.foldl_append]

/-- C4: over any sequence of `imageObserver` callbacks, for an observed image
`i`: while no intersecting entry for `i` has been delivered (only entries
that are not intersecting, or entries for other images), image `i` and its
count of assignments are unchanged; the first intersecting entry for `i`,
when `i` has a non-empty `data-src`, sets `src` to that value, removes
`data-src` and unobserves `i`, and this is the state of `i` after the whole
sequence, whatever entries (repeated intersecting ones for `i` included)
follow: `src` has been assigned from `data-src` exactly once; from any state
`src` is assigned at most once; and callbacks that hold only entries that are
not intersecting or are for loaded images change nothing at all. -/
theorem lazy_image_loading (s : LazyState) (i : ℕ) (callbacks : List (List Entry)) :
    ((∀ es ∈ callbacks, ∀ x ∈ es, ¬ (x.target = i ∧ x.isIntersecting = true)) →
        (runImageObserver callbacks s).images i = s.images i
        ∧ srcAssignments (runImageObserver callbacks s) i = srcAssignments s i)
    ∧ (∀ (url : String) (earlier later : List (List Entry)) (before after : List Entry)
        (e : Entry),
        (s.images i).dataSrc = some url → url ≠ "" →
        (∀ es ∈ earlier, ∀ x ∈ es, ¬ (x.target = i ∧ x.isIntersecting = true)) →
        (∀ x ∈ before, ¬ (x.target = i ∧ x.isIntersecting = true)) →
        e.target = i → e.isIntersecting = true →
        ((runImageObserver (earlier ++ [before ++ e :: after] ++ later) s).images i).src
            = some url
        ∧ ((runImageObserver (earlier ++ [before ++ e :: after] ++ later) s).images i).dataSrc
            = none
        ∧ i ∉ (runImageObserver (earlier ++ [before ++ e :: after] ++ later) s).observed
        ∧ srcAssignments (runImageObserver (earlier ++ [before ++ e :: after] ++ later) s) i
            = srcAssignments s i + 1
        ∧ srcAssignments (imageObserverCallback (runImageObserver earlier s) before) i
            = srcAssignments s i)
    ∧ srcAssignments (runImageObserver callbacks s) i ≤ srcAssignments s i + 1
    ∧ ((∀ es ∈ callbacks, ∀ x ∈ es,
          x.isIntersecting = false ∨ (s.images x.target).dataSrc = none) →
        runImageObserver callbacks s = s) := by
  refine ⟨runImageObserver_miss callbacks s i, ?_, ?_, runImageObserver_idle callbacks s⟩
  · intro url earlier later before after e hd hu hearlier hbefore ht hi
    obtain ⟨a1, a2⟩ := runImageObserver_miss earlier s i hearlier
    obtain ⟨b1, b2⟩ := imageObserverCallback_miss before (runImageObserver earlier s) i hbefore
    have hd1 : ((imageObserverCallback (runImageObserver earlier s) before).images
        e.target).dataSrc = some url := by
      rw [ht, b1, a1]; exact hd
    have hload := imageEntry_load _ e url hi hd1 hu
    have himg : (imageEntry (imageObserverCallback (runImageObserver earlier s) before)
        e).images i = { src := some url, dataSrc := none } := by
      rw [hload, ← ht]; simp
    have hobs : i ∉ (imageEntry (imageObserverCallback (runImageObserver earlier s) before)
        e).observed := by
      rw [hload, ← ht]; simp [List.mem_filter]
    have hcnt : srcAssignments
        (imageEntry (imageObserverCallback (runImageObserver earlier s) before) e) i
        = srcAssignments s i + 1 := by
      rw [hload, ← b2.trans a2, ← ht]
      simp [srcAssignments, List.countP_append]
    have hnone : ((imageEntry (imageObserverCallback (runImageObserver earlier s) before)
        e).images i).dataSrc = none := by
      rw [himg]
    obtain ⟨c1, c2, c3⟩ := imageObserverCallback_keeps_loaded after _ i hnone hobs
    obtain ⟨d1, d2, d3⟩ := runImageObserver_keeps_loaded later _ i
      (by rw [c1]; exact hnone) c3
    rw [runImageObserver_split]
    refine ⟨?_, ?_, d3, ?_, b2.trans a2⟩
    · rw [d1, c1, himg]
    · rw [d1, c1, himg]
    · rw [d2, c2, hcnt]
  · exact (runImageObserver_count callbacks s i (srcAssignments s i)
      ⟨Nat.le_succ _, fun _ => le_refl _⟩).1

/-- Witness for C4: on the sample page, after an entry that is not
intersecting, the first intersecting entry for image 0 and a repeated one in a
later callback, `src` of image 0 is `hero.jpg`. -/
theorem lazy_image_loading_witness :
    ((runImageObserver
        ([] ++ [[{ target := 0, isIntersecting := false }]
                  ++ { target := 0, isIntersecting := true } :: []]
            ++ [[{ target := 0, isIntersecting := true }]])
        sampleLazy).images 0).src = some "hero.jpg" :=
  ((lazy_image_loading sampleLazy 0 []).2.1 "hero.jpg" []
    [[{ target := 0, isIntersecting := true }]]
    [{ target := 0, isIntersecting := false }] []
    { target := 0, isIntersecting := true }
    rfl (by decide) (by simp) (by simp) rfl rfl).1

/-! ## Scroll observer -/

theorem mem_add (l : ClassList) (t u : String) : u ∈ ClassList.add l t ↔ u ∈ l ∨ u = t := by
  unfold ClassList.add
  split
  · constructor
    · exact Or.inl
    · rintro (h | h)
      · exact h
      · subst h; assumption
  · simp

theorem observerEntry_not_intersecting (dom : Dom) (s : ObserverState) (entry : Entry)
    (h : entry.isIntersecting = false) : observerEntry dom s entry = s := by
  simp [observerEntry, h]

theorem startCounter_classes_grow (s : ObserverState) (c x : ℕ) (t : String)
    (h : t ∈ s.classes x) : t ∈ (startCounter s c).classes x := by
  unfold startCounter
  split
  · by_cases hx : x = c
    · subst hx
      simp only [Function.update_same]
      exact (mem_add _ _ _).2 (Or.inl h)
    · simp only [Function.update_noteq hx]
      exact h
  · exact h

theorem foldl_startCounter_classes_grow (cs : List ℕ) (s : ObserverState) (x : ℕ)
    (t : String) (h : t ∈ s.classes x) : t ∈ (cs.foldl startCounter s).classes x := by
  induction cs generalizing s with
  | nil => exact h
  | cons c cs ih => exact ih (startCounter s c) (startCounter_classes_grow s c x t h)

theorem observerEntry_classes_grow (dom : Dom) (s : ObserverState) (entry : Entry) (x : ℕ)
    (t : String) (h : t ∈ s.classes x) : t ∈ (observerEntry dom s entry).classes x := by
  unfold observerEntry
  split
  · apply foldl_startCounter_classes_grow
    by_cases hx : x = entry.target
    · subst hx
      simp only [Function.update_same]
      exact (mem_add _ _ _).2 (Or.inl h)
    · simp only [Function.update_noteq hx]
      exact h
  · exact h

theorem observerCallback_classes_grow (dom : Dom) (entries : List Entry) (s : ObserverState)
    (x : ℕ) (t : String) (h : t ∈ s.classes x) :
    t ∈ (observerCallback dom s entries).classes x := by
  induction entries generalizing s with
  | nil => exact h
  | cons e es ih => exact ih (observerEntry dom s e) (observerEntry_classes_grow dom s e x t h)

theorem runObserver_classes_grow (dom : Dom) (callbacks : List (List Entry))
    (s : ObserverState) (x : ℕ) (t : String) (h : t ∈ s.classes x) :
    t ∈ (runObserver dom callbacks s).classes x := by
  induction callbacks generalizing s with
  | nil => exact h
  | cons es rest ih =>
    exact ih (observerCallback dom s es) (observerCallback_classes_grow dom es s x t h)

/-- A counter that is already marked is not started by `startCounter`. -/
theorem startCounter_animated (s : ObserverState) (c c1 : ℕ) (h : isAnimated s c) :
    isAnimated (startCounter s c1) c ∧ timesStarted (startCounter s c1) c = timesStarted s c := by
  refine ⟨startCounter_classes_grow s c1 c _ h, ?_⟩
  unfold startCounter
  split
  · next hg =>
    have hne : c1 ≠ c := by
      intro heq
      subst heq
      simp [ClassList.contains] at hg
      exact hg h
    simp [timesStarted, List.count_append, List.count_cons, hne]
  · rfl

/-- An unmarked counter is untouched by `startCounter` on another counter. -/
theorem startCounter_other (s : ObserverState) (c c1 : ℕ) (hne : c1 ≠ c)
    (h : ¬ isAnimated s c) :
    ¬ isAnimated (startCounter s c1) c
    ∧ timesStarted (startCounter s c1) c = timesStarted s c := by
  unfold startCounter
  split
  · refine ⟨?_, ?_⟩
    · simp only [isAnimated, Function.update_noteq (Ne.symm hne)]
      exact h
    · simp [timesStarted, List.count_append, List.count_cons, hne]
  · exact ⟨h, rfl⟩

/-- An unmarked counter is marked and started by `startCounter` on itself. -/
theorem startCounter_self (s : ObserverState) (c : ℕ) (h : ¬ isAnimated s c) :
    isAnimated (startCounter s c) c
    ∧ timesStarted (startCounter s c) c = timesStarted s c + 1 := by
  have hg : (!(ClassList.contains (s.classes c) "animated")) = true := by
    simpa [ClassList.contains, isAnimated] using h
  unfold startCounter
  rw [if_pos hg]
  refine ⟨?_, ?_⟩
  · simp only [isAnimated, Function.update_same]
    exact (mem_add _ _ _).2 (Or.inr rfl)
  · simp [timesStarted, List.count_append, List.count_cons]

theorem foldl_startCounter_animated (cs : List ℕ) (s : ObserverState) (c : ℕ)
    (h : isAnimated s c) :
    isAnimated (cs.foldl startCounter s) c
    ∧ timesStarted (cs.foldl startCounter s) c = timesStarted s c := by
  induction cs generalizing s with
  | nil => exact ⟨h, rfl⟩
  | cons c1 cs ih =>
    obtain ⟨h1, h2⟩ := startCounter_animated s c c1 h
    obtain ⟨h3, h4⟩ := ih (startCounter s c1) h1
    exact ⟨h3, h4.trans h2⟩

theorem foldl_startCounter_not_mem (cs : List ℕ) (s : ObserverState) (c : ℕ)
    (hc : c ∉ cs) (h : ¬ isAnimated s c) :
    ¬ isAnimated (cs.foldl startCounter s) c
    ∧ timesStarted (cs.foldl startCounter s) c = timesStarted s c := by
  induction cs generalizing s with
  | nil => exact ⟨h, rfl⟩
  | cons c1 cs ih =>
    have hne : c1 ≠ c := fun heq => hc (by simp [heq])
    have hc2 : c ∉ cs := fun hm => hc (List.mem_cons_of_mem _ hm)
    obtain ⟨h1, h2⟩ := startCounter_other s c c1 hne h
    obtain ⟨h3, h4⟩ := ih (startCounter s c1) hc2 h1
    exact ⟨h3, h4.trans h2⟩

theorem foldl_startCounter_mem (cs : List ℕ) (s : ObserverState) (c : ℕ)
    (hc : c ∈ cs) (h : ¬ isAnimated s c) :
    isAnimated (cs.foldl startCounter s) c
    ∧ timesStarted (cs.foldl startCounter s) c = timesStarted s c + 1 := by
  induction cs generalizing s with
  | nil => exact absurd hc (List.not_mem_nil _)
  | cons c1 cs ih =>
    by_cases heq : c1 = c
    · subst heq
      obtain ⟨h1, h2⟩ := startCounter_self s c1 h
      obtain ⟨h3, h4⟩ := foldl_startCounter_animated cs (startCounter s c1) c1 h1
      exact ⟨h3, h4.trans h2⟩
    · have hc2 : c ∈ cs := by
        rcases List.mem_cons.1 hc with h0 | h0
        · exact absurd h0.symm heq
        · exact h0
      obtain ⟨h1, h2⟩ := startCounter_other s c c1 heq h
      obtain ⟨h3, h4⟩ := ih (startCounter s c1) hc2 h1
      exact ⟨h3, by rw [← h2]; exact h4⟩

theorem isAnimated_faded (s : ObserverState) (target c : ℕ) :
    isAnimated
      { s with
        classes :=
          Function.update s.classes target (ClassList.add (s.classes target) "fade-in") } c
      ↔ isAnimated s c := by
  unfold isAnimated
  by_cases hx : c = target
  · subst hx
    simp only [Function.update_same, mem_add]
    constructor
    · rintro (h | h)
      · exact h
      · exact absurd h (by decide)
    · exact Or.inl
  · simp only [Function.update_noteq hx]

/-- A marked counter stays marked and is not started by any entry. -/
theorem observerEntry_animated (dom : Dom) (s : ObserverState) (entry : Entry) (c : ℕ)
    (h : isAnimated s c) :
    isAnimated (observerEntry dom s entry) c
    ∧ timesStarted (observerEntry dom s entry) c = timesStarted s c := by
  unfold observerEntry
  split
  · exact foldl_startCounter_animated _ _ c ((isAnimated_faded s entry.target c).2 h)
  · exact ⟨h, rfl⟩

/-- An unmarked counter is left alone by an entry that is not intersecting or
whose target does not contain it. -/
theorem observerEntry_miss (dom : Dom) (s : ObserverState) (entry : Entry) (c : ℕ)
    (h : ¬ isAnimated s c)
    (hmiss : ¬ (entry.isIntersecting = true ∧ c ∈ dom.counters entry.target)) :
    ¬ isAnimated (observerEntry dom s entry) c
    ∧ timesStarted (observerEntry dom s entry) c = timesStarted s c := by
  unfold observerEntry
  split
  · next hi =>
    have hc : c ∉ dom.counters entry.target := fun hm => hmiss ⟨hi, hm⟩
    exact foldl_startCounter_not_mem _ _ c hc (fun ha => h ((isAnimated_faded s entry.target c).1 ha))
  · exact ⟨h, rfl⟩

/-- An unmarked counter is marked and started once by an intersecting entry
whose target contains it. -/
theorem observerEntry_hit (dom : Dom) (s : ObserverState) (entry : Entry) (c : ℕ)
    (h : ¬ isAnimated s c) (hi : entry.isIntersecting = true)
    (hc : c ∈ dom.counters entry.target) :
    isAnimated (observerEntry dom s entry) c
    ∧ timesStarted (observerEntry dom s entry) c = timesStarted s c + 1 := by
  unfold observerEntry
  rw [if_pos hi]
  exact foldl_startCounter_mem _ _ c hc (fun ha => h ((isAnimated_faded s entry.target c).1 ha))

theorem observerCallback_animated (dom : Dom) (entries : List Entry) (s : ObserverState)
    (c : ℕ) (h : isAnimated s c) :
    isAnimated (observerCallback dom s entries) c
    ∧ timesStarted (observerCallback dom s entries) c = timesStarted s c := by
  induction entries generalizing s with
  | nil => exact ⟨h, rfl⟩
  | cons e es ih =>
    obtain ⟨h1, h2⟩ := observerEntry_animated dom s e c h
    obtain ⟨h3, h4⟩ := ih (observerEntry dom s e) h1
    exact ⟨h3, h4.trans h2⟩

theorem observerCallback_miss (dom : Dom) (entries : List Entry) (s : ObserverState)
    (c : ℕ) (h : ¬ isAnimated s c)
    (hmiss : ∀ x ∈ entries, ¬ (x.isIntersecting = true ∧ c ∈ dom.counters x.target)) :
    ¬ isAnimated (observerCallback dom s entries) c
    ∧ timesStarted (observerCallback dom s entries) c = timesStarted s c := by
  induction entries generalizing s with
  | nil => exact ⟨h, rfl⟩
  | cons e es ih =>
    obtain ⟨h1, h2⟩ := observerEntry_miss dom s e c h (hmiss e (List.mem_cons_self _ _))
    obtain ⟨h3, h4⟩ := ih (observerEntry dom s e) h1
      (fun x hx => hmiss x (List.mem_cons_of_mem _ hx))
    exact ⟨h3, h4.trans h2⟩

theorem runObserver_animated (dom : Dom) (callbacks : List (List Entry)) (s : ObserverState)
    (c : ℕ) (h : isAnimated s c) :
    isAnimated (runObserver dom callbacks s) c
    ∧ timesStarted (runObserver dom callbacks s) c = timesStarted s c := by
  induction callbacks generalizing s with
  | nil => exact ⟨h, rfl⟩
  | cons es rest ih =>
    obtain ⟨h1, h2⟩ := observerCallback_animated dom es s c h
    obtain ⟨h3, h4⟩ := ih (observerCallback dom s es) h1
    exact ⟨h3, h4.trans h2⟩

theorem runObserver_miss (dom : Dom) (callbacks : List (List Entry)) (s : ObserverState)
    (c : ℕ) (h : ¬ isAnimated s c)
    (hmiss : ∀ es ∈ callbacks, ∀ x ∈ es,
      ¬ (x.isIntersecting = true ∧ c ∈ dom.counters x.target)) :
    ¬ isAnimated (runObserver dom callbacks s) c
    ∧ timesStarted (runObserver dom callbacks s) c = timesStarted s c := by
  induction callbacks generalizing s with
  | nil => exact ⟨h, rfl⟩
  | cons es rest ih =>
    obtain ⟨h1, h2⟩ := observerCallback_miss dom es s c h (hmiss es (List.mem_cons_self _ _))
    obtain ⟨h3, h4⟩ := ih (observerCallback dom s es) h1
      (fun es1 he => hmiss es1 (List.mem_cons_of_mem _ he))
    exact ⟨h3, h4.trans h2⟩

/-- Any single entry starts a given counter at most once, and only by marking it. -/
theorem observerEntry_le (dom : Dom) (s : ObserverState) (entry : Entry) (c : ℕ) :
    timesStarted (observerEntry dom s entry) c = timesStarted s c
    ∨ (¬ isAnimated s c ∧ isAnimated (observerEntry dom s entry) c
        ∧ timesStarted (observerEntry dom s entry) c = timesStarted s c + 1) := by
  by_cases h : isAnimated s c
  · exact Or.inl (observerEntry_animated dom s entry c h).2
  · by_cases hhit : entry.isIntersecting = true ∧ c ∈ dom.counters entry.target
    · obtain ⟨h1, h2⟩ := observerEntry_hit dom s entry c h hhit.1 hhit.2
      exact Or.inr ⟨h, h1, h2⟩
    · exact Or.inl (observerEntry_miss dom s entry c h hhit).2

theorem observerCallback_le (dom : Dom) (entries : List Entry) (s : ObserverState) (c : ℕ) :
    timesStarted (observerCallback dom s entries) c ≤ timesStarted s c + 1
    ∧ (¬ isAnimated (observerCallback dom s entries) c →
        timesStarted (observerCallback dom s entries) c = timesStarted s c) := by
  induction entries generalizing s with
  | nil => exact ⟨Nat.le_succ _, fun _ => rfl⟩
  | cons e es ih =>
    show timesStarted (observerCallback dom (observerEntry dom s e) es) c ≤ _ ∧ (_ → _ = _)
    rcases observerEntry_le dom s e c with h | ⟨_, h1, h2⟩
    · rw [← h]; exact ih (observerEntry dom s e)
    · obtain ⟨h3, h4⟩ := observerCallback_animated dom es _ c h1
      refine ⟨by rw [h4, h2], fun hn => absurd h3 hn⟩

theorem runObserver_le (dom : Dom) (callbacks : List (List Entry)) (s : ObserverState)
    (c : ℕ) :
    timesStarted (runObserver dom callbacks s) c ≤ timesStarted s c + 1
    ∧ (¬ isAnimated (runObserver dom callbacks s) c →
        timesStarted (runObserver dom callbacks s) c = timesStarted s c) := by
  induction callbacks generalizing s with
  | nil => exact ⟨Nat.le_succ _, fun _ => rfl⟩
  | cons es rest ih =>
    show timesStarted (runObserver dom rest (observerCallback dom s es)) c ≤ _ ∧ (_ → _ = _)
    by_cases ha : isAnimated (observerCallback dom s es) c
    · obtain ⟨h3, h4⟩ := runObserver_animated dom rest _ c ha
      exact ⟨by rw [h4]; exact (observerCallback_le dom es s c).1, fun hn => absurd h3 hn⟩
    · have heq := (observerCallback_le dom es s c).2 ha
      rw [← heq]
      exact ih (observerCallback dom s es)

theorem runObserver_split (dom : Dom) (earlier later : List (List Entry))
    (before after : List Entry) (e : Entry) (s : ObserverState) :
    runObserver dom (earlier ++ [before ++ e :: after] ++ later) s
      = runObserver dom later
          (observerCallback dom
            (observerEntry dom (observerCallback dom (runObserver dom earlier s) before) e)
            after) := by
  simp [runObserver, observerCallback, List.foldl_append]

/-- C9, as stated, fails: the sample counter already carries `animated` in its
markup, the first intersecting entry whose target contains it arrives, and
the observer callback does not call `animateCounter` on it. -/
theorem observer_skips_marked_counter :
    ¬ (∀ (dom : Dom) (s : ObserverState) (c : ℕ) (e : Entry),
        s.started = [] → e.isIntersecting = true → c ∈ dom.counters e.target →
        timesStarted (runObserver dom [[e]] s) c = 1) := by
  intro h
  have h1 := h sampleDom sampleMarked 1 { target := 0, isIntersecting := true } rfl rfl
    (by decide)
  revert h1
  decide

/-- C9, amended: over every sequence of observer callbacks, from any state,
the callback calls `animateCounter` on a given counter at most once, and a
counter it has started carries `animated`; a counter that does not carry
`animated` beforehand is started exactly on the first intersecting entry
whose target contains it (not before, once there, never again) and is marked
`animated` by it; a counter that carries `animated` beforehand is never
started; an entry that is not intersecting changes nothing; and a class that
an element has, `fade-in` included, is never removed. -/
theorem counters_start_once (dom : Dom) (s : ObserverState) (c : ℕ) :
    (∀ callbacks, timesStarted (runObserver dom callbacks s) c ≤ timesStarted s c + 1)
    ∧ (∀ callbacks, timesStarted (runObserver dom callbacks s) c ≠ timesStarted s c →
        isAnimated (runObserver dom callbacks s) c)
    ∧ (∀ (earlier later : List (List Entry)) (before after : List Entry) (e : Entry),
        ¬ isAnimated s c →
        (∀ es ∈ earlier, ∀ y ∈ es, ¬ (y.isIntersecting = true ∧ c ∈ dom.counters y.target)) →
        (∀ y ∈ before, ¬ (y.isIntersecting = true ∧ c ∈ dom.counters y.target)) →
        e.isIntersecting = true → c ∈ dom.counters e.target →
        timesStarted (observerCallback dom (runObserver dom earlier s) before) c
            = timesStarted s c
        ∧ timesStarted
            (observerEntry dom (observerCallback dom (runObserver dom earlier s) before) e) c
            = timesStarted s c + 1
        ∧ isAnimated
            (observerEntry dom (observerCallback dom (runObserver dom earlier s) before) e) c
        ∧ timesStarted (runObserver dom (earlier ++ [before ++ e :: after] ++ later) s) c
            = timesStarted s c + 1
        ∧ isAnimated (runObserver dom (earlier ++ [before ++ e :: after] ++ later) s) c)
    ∧ (isAnimated s c →
        ∀ callbacks, timesStarted (runObserver dom callbacks s) c = timesStarted s c)
    ∧ (∀ e : Entry, e.isIntersecting = false → observerEntry dom s e = s)
    ∧ (∀ callbacks (x : ℕ) (t : String), t ∈ s.classes x →
        t ∈ (runObserver dom callbacks s).classes x) := by
  refine ⟨fun cbs => (runObserver_le dom cbs s c).1, ?_, ?_, ?_, ?_, ?_⟩
  · intro cbs hne
    by_contra hn
    exact hne ((runObserver_le dom cbs s c).2 hn)
  · intro earlier later before after e hfresh hearlier hbefore hi hc
    obtain ⟨a1, a2⟩ := runObserver_miss dom earlier s c hfresh hearlier
    obtain ⟨b1, b2⟩ := observerCallback_miss dom before _ c a1 hbefore
    obtain ⟨c1, c2⟩ := observerEntry_hit dom _ e c b1 hi hc
    obtain ⟨d1, d2⟩ := observerCallback_animated dom after _ c c1
    obtain ⟨e1, e2⟩ := runObserver_animated dom later _ c d1
    rw [runObserver_split]
    refine ⟨b2.trans a2, ?_, c1, ?_, e1⟩
    · rw [c2, b2, a2]
    · rw [e2, d2, c2, b2, a2]
  · intro ha cbs
    exact (runObserver_animated dom cbs s c ha).2
  · exact fun e he => observerEntry_not_intersecting dom s e he
  · exact fun cbs x t ht => runObserver_classes_grow dom cbs s x t ht

/-- Witness for C9: on the sample page as served, the counter is started by
the first intersecting entry for its section, after an entry that was not
intersecting, and not again by a repeated entry. -/
theorem counters_start_once_witness :
    timesStarted
      (runObserver sampleDom
        ([] ++ [[{ target := 0, isIntersecting := false }]
                  ++ { target := 0, isIntersecting := true } :: []]
            ++ [[{ target := 0, isIntersecting := true }]])
        sampleFresh) 1
      = timesStarted sampleFresh 1 + 1 :=
  ((counters_start_once sampleDom sampleFresh 1).2.2.1 []
    [[{ target := 0, isIntersecting := true }]]
    [{ target := 0, isIntersecting := false }] []
    { target := 0, isIntersecting := true }
    (by unfold isAnimated; decide) (by simp) (by simp) rfl (by decide)).2.2.2.1

/-! ## Debounce -/

theorem advance_armed_early {α : Type} (wait upTo : ℕ) (c : ℕ × α) (s : DebounceState α)
    (h : Armed wait c s) (hlt : upTo < c.1 + wait) : advance upTo s = s := by
  obtain ⟨id, _, hp⟩ := h
  have hn : ¬ (c.1 + wait ≤ upTo) := by omega
  simp [advance, hp, fireTimers, nextDue, hn]

theorem advance_armed_due {α : Type} (wait upTo : ℕ) (c : ℕ × α) (s : DebounceState α)
    (h : Armed wait c s) (hle : c.1 + wait ≤ upTo) :
    (advance upTo s).invoked = s.invoked ++ [(c.1 + wait, c.2)]
    ∧ (advance upTo s).pending = [] := by
  obtain ⟨id, _, hp⟩ := h
  simp [advance, hp, fireTimers, nextDue, hle, later, clearTimeout]

theorem advance_idle {α : Type} (upTo : ℕ) (s : DebounceState α) (h : s.pending = []) :
    advance upTo s = s := by
  simp [advance, h, fireTimers]

theorem executedFunction_idle {α : Type} (wait now : ℕ) (args : α) (s : DebounceState α)
    (h : s.pending = []) :
    Armed wait (now, args) (executedFunction wait now args s)
    ∧ (executedFunction wait now args s).invoked = s.invoked := by
  refine ⟨⟨s.nextId, rfl, ?_⟩, rfl⟩
  simp [executedFunction, h, clearTimeout]

theorem executedFunction_armed {α : Type} (wait now : ℕ) (args : α) (c : ℕ × α)
    (s : DebounceState α) (h : Armed wait c s) :
    Armed wait (now, args) (executedFunction wait now args s)
    ∧ (executedFunction wait now args s).invoked = s.invoked := by
  obtain ⟨id, ht, hp⟩ := h
  refine ⟨⟨s.nextId, rfl, ?_⟩, rfl⟩
  simp [executedFunction, hp, ht, clearTimeout]

theorem runDebounce_armed {α : Type} (wait : ℕ) (calls : List (ℕ × α)) (c : ℕ × α)
    (s : DebounceState α) (h : Armed wait c s) (hb : Burst wait (c :: calls)) :
    Armed wait ((c :: calls).getLast (List.cons_ne_nil _ _)) (runDebounce wait calls s)
    ∧ (runDebounce wait calls s).invoked = s.invoked := by
  induction calls generalizing c s with
  | nil => exact ⟨h, rfl⟩
  | cons d rest ih =>
    have hcd : c.1 ≤ d.1 ∧ d.1 < c.1 + wait := (List.chain'_cons.1 hb).1
    have hrest : Burst wait (d :: rest) := (List.chain'_cons.1 hb).2
    have hadv : advance d.1 s = s := advance_armed_early wait d.1 c s h hcd.2
    have hstep := executedFunction_armed wait d.1 d.2 c s h
    have := ih d (executedFunction wait d.1 d.2 s) hstep.1 hrest
    have hcons : runDebounce wait (d :: rest) s
        = runDebounce wait rest (executedFunction wait d.1 d.2 s) := by
      show runDebounce wait rest (executedFunction wait d.1 d.2 (advance d.1 s)) = _
      rw [hadv]
    rw [hcons, List.getLast_cons (List.cons_ne_nil _ _)]
    exact ⟨this.1, this.2.trans hstep.2⟩

/-- C3: for every non-empty burst of calls to the debounced function (each
call less than `wait` ms after the previous one), made while no timer is
pending, `func` is not invoked during the burst nor at any time before
`wait` ms have passed since the last call, and by any later time it has been
invoked exactly once, at `wait` ms after the last call, with the arguments of
the last call; and no call to the debounced function invokes `func` itself. -/
theorem debounce_burst_fires_once {α : Type} (wait : ℕ) (first : ℕ × α)
    (rest : List (ℕ × α)) (s : DebounceState α) (horizon : ℕ)
    (hidle : s.pending = []) (hburst : Burst wait (first :: rest)) :
    (runDebounce wait (first :: rest) s).invoked = s.invoked
    ∧ (horizon < ((first :: rest).getLast (List.cons_ne_nil _ _)).1 + wait →
        (advance horizon (runDebounce wait (first :: rest) s)).invoked = s.invoked)
    ∧ (((first :: rest).getLast (List.cons_ne_nil _ _)).1 + wait ≤ horizon →
        (advance horizon (runDebounce wait (first :: rest) s)).invoked
          = s.invoked ++ [(((first :: rest).getLast (List.cons_ne_nil _ _)).1 + wait,
                           ((first :: rest).getLast (List.cons_ne_nil _ _)).2)]
        ∧ (advance horizon (runDebounce wait (first :: rest) s)).pending = [])
    ∧ (∀ (now : ℕ) (args : α) (st : DebounceState α),
        (executedFunction wait now args st).invoked = st.invoked) := by
  have hfirst := executedFunction_idle wait first.1 first.2 s hidle
  have hcons : runDebounce wait (first :: rest) s
      = runDebounce wait rest (executedFunction wait first.1 first.2 s) := by
    show runDebounce wait rest (executedFunction wait first.1 first.2 (advance first.1 s)) = _
    rw [advance_idle first.1 s hidle]
  have hrun := runDebounce_armed wait rest first _ hfirst.1 hburst
  rw [← hcons] at hrun
  have hinv : (runDebounce wait (first :: rest) s).invoked = s.invoked :=
    hrun.2.trans hfirst.2
  refine ⟨hinv, ?_, ?_, fun _ _ _ => rfl⟩
  · intro hlt
    rw [advance_armed_early wait horizon _ _ hrun.1 hlt]
    exact hinv
  · intro hle
    have := advance_armed_due wait horizon _ _ hrun.1 hle
    rw [this.1, hinv]
    exact ⟨rfl, this.2⟩

/-- Witness for C3: three calls at 0, 100 and 250 ms with `wait = 200`; by
time 1000 `func` has run once, at 450 ms, with the arguments of the third. -/
theorem debounce_burst_fires_once_witness :
    (advance 1000 (runDebounce 200 [(0, "a"), (100, "b"), (250, "c")]
        (debounce String))).invoked = [(450, "c")] :=
  ((debounce_burst_fires_once 200 (0, "a") [(100, "b"), (250, "c")]
      (debounce String) 1000 rfl
      (by simp [Burst])).2.2.1 (by decide)).1

/-! ## Counter animation, binary64 arithmetic -/

theorem roundQuot_ge (num d : ℕ) : num / d ≤ Binary64.roundQuot num d := by
  unfold Binary64.roundQuot
  split
  · exact le_refl _
  · split
    · exact Nat.le_succ _
    · split
      · exact le_refl _
      · exact Nat.le_succ _

theorem roundQuot_le (num d : ℕ) : Binary64.roundQuot num d ≤ num / d + 1 := by
  unfold Binary64.roundQuot
  split
  · exact Nat.le_succ _
  · split
    · exact le_refl _
    · split
      · exact Nat.le_succ _
      · exact le_refl _

/-- The spacing `2 ^ (log2 q0 - 52)` is one unit, or at most `q0 / 2^52`. -/
theorem spacing_cases (q0 : ℕ) :
    Nat.log2 q0 - 52 = 0 ∨ 2 ^ (Nat.log2 q0 - 52) * 2 ^ 52 ≤ q0 := by
  by_cases h : Nat.log2 q0 ≤ 52
  · exact Or.inl (Nat.sub_eq_zero_of_le h)
  · right
    have hq : q0 ≠ 0 := by
      intro h0
      subst h0
      exact h (by simp [Nat.log2])
    have hle : 2 ^ Nat.log2 q0 ≤ q0 := Nat.log2_self_le hq
    have hsplit : Nat.log2 q0 - 52 + 52 = Nat.log2 q0 := by omega
    rw [← pow_add, hsplit]
    exact hle

theorem spacing_small (q0 : ℕ) (h : q0 < 2 ^ 53) : Nat.log2 q0 - 52 = 0 := by
  rcases spacing_cases q0 with h0 | h0
  · exact h0
  · by_cases hq : q0 = 0
    · subst hq; simp [Nat.log2]
    · have hlt : Nat.log2 q0 < 53 := (Nat.log2_lt hq).2 h
      omega

theorem roundUnits_small (num den : ℕ) (h : num / den < 2 ^ 53) :
    Binary64.roundUnits num den
      = if Binary64.roundQuot num den < 2 ^ 2098 then
          Binary64.Num.fin (Binary64.roundQuot num den)
        else Binary64.Num.inf := by
  unfold Binary64.roundUnits
  simp only [spacing_small _ h, pow_zero, mul_one]

/-- Adding a positive increment that is not tiny against the target moves a
running value below the target strictly up, or to `Infinity`. -/
theorem add_progress (c inc t : ℕ) (hc : c < t) (hinc : 1 ≤ inc) (ht : t ≤ 120 * inc) :
    Binary64.add (Binary64.Num.fin c) (Binary64.Num.fin inc) = Binary64.Num.inf
    ∨ ∃ c1, Binary64.add (Binary64.Num.fin c) (Binary64.Num.fin inc) = Binary64.Num.fin c1
        ∧ c < c1 := by
  simp only [Binary64.add, Binary64.roundUnits, Nat.div_one, one_mul]
  split
  · right
    refine ⟨_, rfl, ?_⟩
    have hP : 2 ^ (Nat.log2 (c + inc) - 52) ≤ inc := by
      rcases spacing_cases (c + inc) with h0 | h0
      · rw [h0]; simpa using hinc
      · generalize 2 ^ (Nat.log2 (c + inc) - 52) = P at h0 ⊢
        norm_num at h0
        omega
    have hpos : 0 < 2 ^ (Nat.log2 (c + inc) - 52) := Nat.pow_pos (by norm_num)
    have hmod := Nat.mod_lt (c + inc) hpos
    have hdm := Nat.div_add_mod' (c + inc) (2 ^ (Nat.log2 (c + inc) - 52))
    have hge := Nat.mul_le_mul_right (2 ^ (Nat.log2 (c + inc) - 52))
      (roundQuot_ge (c + inc) (2 ^ (Nat.log2 (c + inc) - 52)))
    generalize Binary64.roundQuot (c + inc) (2 ^ (Nat.log2 (c + inc) - 52))
      * 2 ^ (Nat.log2 (c + inc) - 52) = v at hge ⊢
    generalize (c + inc) / 2 ^ (Nat.log2 (c + inc) - 52)
      * 2 ^ (Nat.log2 (c + inc) - 52) = A at hge hdm
    generalize (c + inc) % 2 ^ (Nat.log2 (c + inc) - 52) = B at hmod hdm
    generalize 2 ^ (Nat.log2 (c + inc) - 52) = P at hP hmod
    omega
  · exact Or.inl rfl

/-- From 31 units on, `target / 60` is a positive finite number, and the target
is at most 120 times it. -/
theorem increment_pos (t : ℕ) (ht : t < 2 ^ 2098) (h31 : 31 ≤ t) :
    ∃ inc, Binary64.increment (Binary64.Num.fin t) = Binary64.Num.fin inc
      ∧ 1 ≤ inc ∧ t ≤ 120 * inc := by
  simp only [Binary64.increment, Binary64.divBy, Binary64.steps, Binary64.roundUnits]
  have hq0 : t / 60 * 60 ≤ t := Nat.div_mul_le_self t 60
  have hpos : 0 < 2 ^ (Nat.log2 (t / 60) - 52) := Nat.pow_pos (by norm_num)
  have hd : 0 < 60 * 2 ^ (Nat.log2 (t / 60) - 52) := Nat.mul_pos (by norm_num) hpos
  have hm1 := roundQuot_ge t (60 * 2 ^ (Nat.log2 (t / 60) - 52))
  have hm2 := roundQuot_le t (60 * 2 ^ (Nat.log2 (t / 60) - 52))
  have hdm := Nat.div_add_mod' t (60 * 2 ^ (Nat.log2 (t / 60) - 52))
  have hmod := Nat.mod_lt t hd
  have hsp := spacing_cases (t / 60)
  by_cases hq : t / (60 * 2 ^ (Nat.log2 (t / 60) - 52)) = 0
  · -- the quotient is 0: the spacing is one unit and `t < 60`
    have hs : Nat.log2 (t / 60) - 52 = 0 := by
      rcases hsp with h0 | h0
      · exact h0
      · exfalso
        rw [hq] at hdm
        generalize 2 ^ (Nat.log2 (t / 60) - 52) = P at h0 hdm hmod hpos
        generalize t / 60 = q0 at h0 hq0
        norm_num at h0
        omega
    rw [hs] at hq
    simp only [hs, pow_zero, mul_one] at hq ⊢
    have ht60 : t < 60 := (Nat.div_eq_zero_iff (by norm_num)).1 hq
    have hmod60 : t % 60 = t := Nat.mod_eq_of_lt ht60
    have hr : Binary64.roundQuot t 60 = 1 := by
      simp only [Binary64.roundQuot, hq, hmod60]
      have h1 : ¬ (2 * t < 60) := by omega
      have h2 : 60 < 2 * t := by omega
      simp [h1, h2]
    rw [hr]
    refine ⟨1, by norm_num, le_refl _, by omega⟩
  · -- the quotient is positive
    have hA := Nat.mul_le_mul_right (2 ^ (Nat.log2 (t / 60) - 52)) hm1
    have hB := Nat.mul_le_mul_right (2 ^ (Nat.log2 (t / 60) - 52)) hm2
    have hqP : 2 ^ (Nat.log2 (t / 60) - 52)
        ≤ t / (60 * 2 ^ (Nat.log2 (t / 60) - 52)) * 2 ^ (Nat.log2 (t / 60) - 52) :=
      Nat.le_mul_of_pos_left _ (Nat.pos_of_ne_zero hq)
    have hexp : t / (60 * 2 ^ (Nat.log2 (t / 60) - 52)) * (60 * 2 ^ (Nat.log2 (t / 60) - 52))
        = 60 * (t / (60 * 2 ^ (Nat.log2 (t / 60) - 52)) * 2 ^ (Nat.log2 (t / 60) - 52)) := by
      ring
    have hexp2 : (t / (60 * 2 ^ (Nat.log2 (t / 60) - 52)) + 1) * 2 ^ (Nat.log2 (t / 60) - 52)
        = t / (60 * 2 ^ (Nat.log2 (t / 60) - 52)) * 2 ^ (Nat.log2 (t / 60) - 52)
          + 2 ^ (Nat.log2 (t / 60) - 52) := by
      ring
    rw [hexp] at hdm
    rw [hexp2] at hB
    generalize Binary64.roundQuot t (60 * 2 ^ (Nat.log2 (t / 60) - 52))
      * 2 ^ (Nat.log2 (t / 60) - 52) = v at hA hB ⊢
    generalize t / (60 * 2 ^ (Nat.log2 (t / 60) - 52)) * 2 ^ (Nat.log2 (t / 60) - 52) = A
      at hA hB hdm hqP
    generalize t % (60 * 2 ^ (Nat.log2 (t / 60) - 52)) = B at hdm hmod
    have hv : v < 2 ^ 2098 := by
      generalize 2 ^ (Nat.log2 (t / 60) - 52) = P at hqP hB hmod hpos
      generalize (2 : ℕ) ^ 2098 = top at ht ⊢
      omega
    rw [if_pos hv]
    refine ⟨v, rfl, ?_, ?_⟩
    · generalize 2 ^ (Nat.log2 (t / 60) - 52) = P at hqP hB hmod hpos
      omega
    · generalize 2 ^ (Nat.log2 (t / 60) - 52) = P at hqP hB hmod hpos
      omega

theorem binary64_tick_stop (target : Binary64.Num) (cur : Binary64.Num)
    (txt : Binary64.Shown)
    (h : Binary64.ge (Binary64.add cur (Binary64.increment target)) target = true) :
    Binary64.timerCallback target { current := cur, textContent := txt, cleared := false }
      = { current := Binary64.add cur (Binary64.increment target),
          textContent := Binary64.finalText target, cleared := true } := by
  simp [Binary64.timerCallback, h]

theorem binary64_tick_go (target : Binary64.Num) (cur : Binary64.Num)
    (txt : Binary64.Shown)
    (h : Binary64.ge (Binary64.add cur (Binary64.increment target)) target = false) :
    ∃ txt1,
      Binary64.timerCallback target { current := cur, textContent := txt, cleared := false }
        = { current := Binary64.add cur (Binary64.increment target),
            textContent := txt1, cleared := false } := by
  refine ⟨if Binary64.isWhole (Binary64.add cur (Binary64.increment target)) then
      Binary64.Shown.number (Binary64.floor (Binary64.add cur (Binary64.increment target)))
    else Binary64.toFixed1 (Binary64.add cur (Binary64.increment target)), ?_⟩
  simp only [Binary64.timerCallback, h, Bool.false_eq_true, if_false]

theorem binary64_cleared_fixed (target : Binary64.Num) (s : Binary64.CounterState)
    (h : s.cleared = true) (k : ℕ) : (Binary64.timerCallback target)^[k] s = s := by
  induction k with
  | zero => rfl
  | succ k ih =>
    rw [Function.iterate_succ_apply', ih]
    simp [Binary64.timerCallback, h]

/-- With a positive increment the interval, started below the target, reaches a
stopping tick: no tick before it clears the interval, and that tick writes the
final text. -/
theorem binary64_reaches_stop (t inc : ℕ)
    (hinc : Binary64.increment (Binary64.Num.fin t) = Binary64.Num.fin inc)
    (h1 : 1 ≤ inc) (h120 : t ≤ 120 * inc) (d : ℕ) :
    ∀ (c : ℕ) (txt : Binary64.Shown), t - c ≤ d → c < t →
      ∃ n, 0 < n
        ∧ (∀ k, k < n →
            ((Binary64.timerCallback (Binary64.Num.fin t))^[k]
              { current := Binary64.Num.fin c, textContent := txt, cleared := false }).cleared
              = false)
        ∧ ((Binary64.timerCallback (Binary64.Num.fin t))^[n]
              { current := Binary64.Num.fin c, textContent := txt, cleared := false })
            = { current := ((Binary64.timerCallback (Binary64.Num.fin t))^[n]
                  { current := Binary64.Num.fin c, textContent := txt,
                    cleared := false }).current,
                textContent := Binary64.finalText (Binary64.Num.fin t),
                cleared := true } := by
  induction d with
  | zero =>
    intro c txt hd hc
    omega
  | succ d ih =>
    intro c txt hd hc
    have hone : ∀ cur1,
        Binary64.add (Binary64.Num.fin c) (Binary64.increment (Binary64.Num.fin t)) = cur1 →
        Binary64.ge cur1 (Binary64.Num.fin t) = true →
        ∃ n, 0 < n
          ∧ (∀ k, k < n →
              ((Binary64.timerCallback (Binary64.Num.fin t))^[k]
                { current := Binary64.Num.fin c, textContent := txt,
                  cleared := false }).cleared = false)
          ∧ ((Binary64.timerCallback (Binary64.Num.fin t))^[n]
                { current := Binary64.Num.fin c, textContent := txt, cleared := false })
              = { current := ((Binary64.timerCallback (Binary64.Num.fin t))^[n]
                    { current := Binary64.Num.fin c, textContent := txt,
                      cleared := false }).current,
                  textContent := Binary64.finalText (Binary64.Num.fin t),
                  cleared := true } := by
      intro cur1 hadd hge
      refine ⟨1, Nat.one_pos, ?_, ?_⟩
      · intro k hk
        have : k = 0 := by omega
        subst this
        rfl
      · rw [Function.iterate_one, binary64_tick_stop _ _ _ (by rw [hadd]; exact hge)]
    rcases add_progress c inc t hc h1 h120 with hinf | ⟨c1, hfin, hlt⟩
    · rw [← hinc] at hinf
      exact hone _ hinf rfl
    · rw [← hinc] at hfin
      by_cases hstop : t ≤ c1
      · exact hone _ hfin (by simp [Binary64.ge, hstop])
      · have hgo : Binary64.ge
            (Binary64.add (Binary64.Num.fin c) (Binary64.increment (Binary64.Num.fin t)))
            (Binary64.Num.fin t) = false := by
          rw [hfin]; simp [Binary64.ge, hstop]
        obtain ⟨txt1, htick⟩ := binary64_tick_go (Binary64.Num.fin t) (Binary64.Num.fin c) txt hgo
        rw [hfin] at htick
        obtain ⟨n, hn, hrun, hend⟩ := ih c1 txt1 (by omega) (by omega)
        refine ⟨n + 1, Nat.succ_pos _, ?_, ?_⟩
        · intro k hk
          cases k with
          | zero => rfl
          | succ k =>
            rw [Function.iterate_succ_apply, htick]
            exact hrun k (by omega)
        · rw [Function.iterate_succ_apply, htick]
          exact hend

/-- A representable number that is not a multiple of `2^a` is below `2^(a+52)`. -/
theorem lt_pow_of_not_multiple (t a : ℕ) (hrep : t % 2 ^ (Nat.log2 t - 52) = 0)
    (hnw : t % 2 ^ a ≠ 0) : t < 2 ^ (a + 52) := by
  by_contra hge
  have ht0 : t ≠ 0 := by
    intro h0; subst h0; simp at hnw
  have hlog : ¬ Nat.log2 t < a + 52 := fun h => hge ((Nat.log2_lt ht0).1 h)
  have hdvd1 : 2 ^ a ∣ 2 ^ (Nat.log2 t - 52) := Nat.pow_dvd_pow 2 (by omega)
  have hdvd2 : 2 ^ (Nat.log2 t - 52) ∣ t := Nat.dvd_of_mod_eq_zero hrep
  exact hnw (Nat.mod_eq_zero_of_dvd (dvd_trans hdvd1 hdvd2))

theorem lt_mul_pow_of_lt (t a b c : ℕ) (h : t < 2 ^ (a + b)) (hc : 2 ^ b ≤ c) :
    t < c * 2 ^ a := by
  have h1 : 2 ^ (a + b) = 2 ^ b * 2 ^ a := by rw [pow_add, Nat.mul_comm]
  rw [h1] at h
  exact lt_of_lt_of_le h (Nat.mul_le_mul_right _ hc)

theorem le_mul_pow (x m e : ℕ) (h : x ≤ m) : x ≤ m * 2 ^ e :=
  le_trans h (Nat.le_mul_of_pos_right m (Nat.pow_pos (by norm_num)))

theorem two_pow_pos (e : ℕ) : 0 < 2 ^ e := Nat.pow_pos (by norm_num)

theorem binary64_nonwhole_small (t : ℕ) (hrep : Binary64.representable t)
    (hnw : t % Binary64.one ≠ 0) : t < 10 ^ 21 * Binary64.one := by
  unfold Binary64.one at hnw ⊢
  exact lt_mul_pow_of_lt t 1074 52 (10 ^ 21) (lt_pow_of_not_multiple t 1074 hrep.2 hnw)
    (by norm_num)

theorem binary64_afterTicks_add (target : Binary64.Num) (n j : ℕ) :
    Binary64.afterTicks target (j + n)
      = (Binary64.timerCallback target)^[j] (Binary64.afterTicks target n) := by
  simp only [Binary64.afterTicks, Function.iterate_add_apply]

theorem mul_pow_lt_pow (m e k top : ℕ) (hm : m < 2 ^ k) (hk : k + e ≤ top) :
    m * 2 ^ e < 2 ^ top :=
  calc m * 2 ^ e < 2 ^ k * 2 ^ e :=
        Nat.mul_lt_mul_of_pos_right hm (Nat.pow_pos (by norm_num))
    _ = 2 ^ (k + e) := (pow_add 2 k e).symm
    _ ≤ 2 ^ top := Nat.pow_le_pow_right (by norm_num) hk

/-- Every `m * 2^e` with `m < 2^53` below `2^2098` units is representable. -/
theorem representable_mul_pow (m e : ℕ) (hm : m < 2 ^ 53) (h : m * 2 ^ e < 2 ^ 2098) :
    Binary64.representable (m * 2 ^ e) := by
  refine ⟨h, ?_⟩
  by_cases h0 : m * 2 ^ e = 0
  · rw [h0]; simp
  · apply Nat.mod_eq_zero_of_dvd
    have hlt : m * 2 ^ e < 2 ^ (53 + e) := by
      rw [pow_add]
      exact Nat.mul_lt_mul_of_pos_right hm (Nat.pow_pos (by norm_num))
    have hlog : Nat.log2 (m * 2 ^ e) < 53 + e := (Nat.log2_lt h0).2 hlt
    exact dvd_trans (Nat.pow_dvd_pow 2 (by omega)) (Dvd.intro_left m rfl)

/-- Up to 30 units, `target / 60` rounds to 0 and the running value never
leaves 0: the interval is never cleared. -/
theorem binary64_tiny_stalls (t : ℕ) (hpos : 0 < t) (h30 : t ≤ 30) (n : ℕ) :
    (Binary64.afterTicks (Binary64.Num.fin t) n).current = Binary64.Num.fin 0
    ∧ (Binary64.afterTicks (Binary64.Num.fin t) n).cleared = false := by
  have hdiv : t / 60 = 0 := (Nat.div_eq_zero_iff (by norm_num)).2 (by omega)
  have hmod : t % 60 = t := Nat.mod_eq_of_lt (by omega)
  have hinc : Binary64.increment (Binary64.Num.fin t) = Binary64.Num.fin 0 := by
    simp only [Binary64.increment, Binary64.divBy, Binary64.steps]
    have hq : Binary64.roundQuot t 60 = 0 := by
      simp only [Binary64.roundQuot, hdiv, hmod]
      have h2 : ¬ (60 < 2 * t) := by omega
      simp [h2]
    rw [roundUnits_small t 60 (by rw [hdiv]; exact two_pow_pos 53), hq,
      if_pos (two_pow_pos 2098)]
  have hadd : Binary64.add (Binary64.Num.fin 0) (Binary64.Num.fin 0) = Binary64.Num.fin 0 := by
    simp only [Binary64.add]
    have hq : Binary64.roundQuot (0 + 0) 1 = 0 := by decide
    rw [roundUnits_small (0 + 0) 1 (by norm_num), hq, if_pos (two_pow_pos 2098)]
  induction n with
  | zero => exact ⟨rfl, rfl⟩
  | succ n ih =>
    obtain ⟨hc, hr⟩ := ih
    have hstep : Binary64.afterTicks (Binary64.Num.fin t) (n + 1)
        = Binary64.timerCallback (Binary64.Num.fin t)
            (Binary64.afterTicks (Binary64.Num.fin t) n) := by
      simp only [Binary64.afterTicks, Function.iterate_succ_apply']
    rw [hstep]
    have hge : ¬ (t ≤ 0) := by omega
    simp [Binary64.timerCallback, hr, hc, hinc, hadd, Binary64.ge, hge]

/-- C1, as stated, fails in the arithmetic of the code: the parsed target
`5e-324` (one unit, the smallest positive number) is finite and greater than
0, yet `target / 60` rounds to 0, the running value stays 0, and no tick ever
clears the interval. -/
theorem counter_never_stops_for_tiny_target :
    ¬ (∀ t : ℕ, Binary64.representable t → 0 < t →
        ∃ n, (Binary64.afterTicks (Binary64.Num.fin t) n).cleared = true) := by
  intro h
  have hrep : Binary64.representable 1 := by
    have := representable_mul_pow 1 0 (by norm_num) (by norm_num)
    simpa using this
  obtain ⟨n, hn⟩ := h 1 hrep Nat.one_pos
  rw [(binary64_tiny_stalls 1 Nat.one_pos (by norm_num) n).2] at hn
  exact Bool.noConfusion hn

/-- C1, amended: for every parsed target that is a finite number of at least 31
units (`31 * 2^-1074`, about `1.5e-322`: the targets whose sixtieth does not
round to 0), the interval reaches a stopping tick `n`: no earlier tick clears
it, tick `n` clears it and writes the final text, and every later state equals
the state at tick `n`.  The final text is the target itself when the target is
a whole number, and otherwise the `toFixed(1)` numeral `r / 10` with `r` the
integer nearest `10 * target`, the larger one on a tie. -/
theorem counter_reaches_final_text (t : ℕ) (hrep : Binary64.representable t)
    (h31 : 31 ≤ t) :
    ∃ n, 0 < n
      ∧ (∀ k, k < n → (Binary64.afterTicks (Binary64.Num.fin t) k).cleared = false)
      ∧ (Binary64.afterTicks (Binary64.Num.fin t) n).cleared = true
      ∧ (∀ m, n ≤ m →
          Binary64.afterTicks (Binary64.Num.fin t) m
            = Binary64.afterTicks (Binary64.Num.fin t) n)
      ∧ (t % Binary64.one = 0 →
          (Binary64.afterTicks (Binary64.Num.fin t) n).textContent
            = Binary64.Shown.number (Binary64.Num.fin t))
      ∧ (t % Binary64.one ≠ 0 →
          ∃ r, (Binary64.afterTicks (Binary64.Num.fin t) n).textContent
              = Binary64.Shown.fixed1 r
            ∧ 2 * Binary64.one * r ≤ 20 * t + Binary64.one
            ∧ 20 * t + Binary64.one < 2 * Binary64.one * r + 2 * Binary64.one) := by
  obtain ⟨inc, hinc, h1, h120⟩ := increment_pos t hrep.1 h31
  obtain ⟨n, hn, hrun, hend⟩ :=
    binary64_reaches_stop t inc hinc h1 h120 t 0 Binary64.Shown.original (by omega) (by omega)
  have hend2 : Binary64.afterTicks (Binary64.Num.fin t) n
      = { current := (Binary64.afterTicks (Binary64.Num.fin t) n).current,
          textContent := Binary64.finalText (Binary64.Num.fin t), cleared := true } := hend
  have hcl : (Binary64.afterTicks (Binary64.Num.fin t) n).cleared = true := by
    rw [hend2]
  have htxt : (Binary64.afterTicks (Binary64.Num.fin t) n).textContent
      = Binary64.finalText (Binary64.Num.fin t) := by
    rw [hend2]
  refine ⟨n, hn, hrun, hcl, ?_, ?_, ?_⟩
  · intro m hm
    obtain ⟨j, rfl⟩ : ∃ j, m = j + n := ⟨m - n, by omega⟩
    rw [binary64_afterTicks_add]
    exact binary64_cleared_fixed _ _ hcl j
  · intro hw
    rw [htxt]
    simp only [Binary64.finalText, Binary64.isWhole, hw, decide_True, if_true]
  · intro hnw
    have hsmall := binary64_nonwhole_small t hrep hnw
    have hone : 0 < 2 * Binary64.one := by
      unfold Binary64.one
      exact le_mul_pow 1 2 1074 (by norm_num)
    refine ⟨(20 * t + Binary64.one) / (2 * Binary64.one), ?_, ?_, ?_⟩
    · rw [htxt]
      simp only [Binary64.finalText, Binary64.isWhole, hnw, decide_False, Bool.false_eq_true,
        if_false, Binary64.toFixed1, not_le.2 hsmall]
    · exact Nat.mul_div_le _ _
    · have := Nat.lt_mul_div_succ (20 * t + Binary64.one) hone
      rw [Nat.mul_add, Nat.mul_one] at this
      exact this

/-- Witness for C1: the target `500` (`500 * 2^1074` units). -/
theorem counter_reaches_final_text_witness :
    ∃ n, 0 < n
      ∧ (∀ k, k < n →
          (Binary64.afterTicks (Binary64.Num.fin (500 * 2 ^ 1074)) k).cleared = false)
      ∧ (Binary64.afterTicks (Binary64.Num.fin (500 * 2 ^ 1074)) n).cleared = true
      ∧ (Binary64.afterTicks (Binary64.Num.fin (500 * 2 ^ 1074)) n).textContent
          = Binary64.Shown.number (Binary64.Num.fin (500 * 2 ^ 1074)) := by
  have hlt : 500 * 2 ^ 1074 < 2 ^ 2098 :=
    mul_pow_lt_pow 500 1074 9 2098 (by norm_num) (by norm_num)
  have h31 : 31 ≤ 500 * 2 ^ 1074 := le_mul_pow 31 500 1074 (by norm_num)
  obtain ⟨n, hn, hrun, hcl, _, hw, _⟩ :=
    counter_reaches_final_text (500 * 2 ^ 1074)
      (representable_mul_pow 500 1074 (by norm_num) hlt) h31
  have hmod : 500 * 2 ^ 1074 % Binary64.one = 0 := by
    unfold Binary64.one
    exact Nat.mul_mod_left _ _
  exact ⟨n, hn, hrun, hcl, hw hmod⟩

/-! ## Counter animation: the stopping tick -/

theorem log2Fuel_eq (fuel : ℕ) : ∀ (n acc : ℕ), n < 2 ^ fuel →
    Binary64.log2Fuel fuel n acc = acc + Nat.log2 n := by
  induction fuel with
  | zero =>
    intro n acc h
    have h0 : n = 0 := by simpa using h
    subst h0
    simp [Binary64.log2Fuel, Nat.log2]
  | succ fuel ih =>
    intro n acc h
    by_cases h2 : n < 2
    · have hlog : Nat.log2 n = 0 := by
        rw [Nat.log2]
        simp [not_le.2 h2]
      simp [Binary64.log2Fuel, h2, hlog]
    · have hhalf : n / 2 < 2 ^ fuel := by
        rw [pow_succ] at h
        omega
      have hlog : Nat.log2 n = Nat.log2 (n / 2) + 1 := by
        conv_lhs => rw [Nat.log2]
        simp [not_lt.1 h2]
      simp only [Binary64.log2Fuel, h2, if_false]
      rw [ih (n / 2) (acc + 1) hhalf, hlog]
      omega

theorem roundQuot_error (num d : ℕ) (hd : 0 < d) :
    2 * (Binary64.roundQuot num d * d) ≤ 2 * num + d
    ∧ 2 * num ≤ 2 * (Binary64.roundQuot num d * d) + d := by
  have hdm := Nat.div_add_mod' num d
  have hmod := Nat.mod_lt num hd
  have hsucc : (num / d + 1) * d = num / d * d + d := by ring
  unfold Binary64.roundQuot
  split
  · generalize num / d * d = A at hdm
    omega
  · split
    · rw [hsucc]
      generalize num / d * d = A at hdm
      omega
    · split
      · generalize num / d * d = A at hdm
        omega
      · rw [hsucc]
        generalize num / d * d = A at hdm
        omega

/-- The sum of two finite numbers is the rounding of the exact sum `x`: a value
`v` within `x / 2^53` of `x`, or `Infinity` when `v` reaches `2^1024`. -/
theorem add_error (c inc : ℕ) :
    ∃ v, Binary64.add (Binary64.Num.fin c) (Binary64.Num.fin inc)
        = (if v < 2 ^ 2098 then Binary64.Num.fin v else Binary64.Num.inf)
      ∧ 2 ^ 53 * v ≤ 2 ^ 53 * (c + inc) + (c + inc)
      ∧ 2 ^ 53 * (c + inc) ≤ 2 ^ 53 * v + (c + inc) := by
  refine ⟨Binary64.roundQuot (c + inc) (2 ^ (Nat.log2 (c + inc) - 52))
      * 2 ^ (Nat.log2 (c + inc) - 52), ?_, ?_⟩
  · simp only [Binary64.add, Binary64.roundUnits, Nat.div_one, one_mul]
  · have herr := roundQuot_error (c + inc) (2 ^ (Nat.log2 (c + inc) - 52)) (two_pow_pos _)
    have hsp := spacing_cases (c + inc)
    generalize Binary64.roundQuot (c + inc) (2 ^ (Nat.log2 (c + inc) - 52))
      * 2 ^ (Nat.log2 (c + inc) - 52) = v at herr ⊢
    rcases hsp with h0 | h0
    · rw [h0] at herr
      norm_num at herr ⊢
      omega
    · generalize 2 ^ (Nat.log2 (c + inc) - 52) = P at herr h0
      norm_num at h0 ⊢
      omega

theorem ge_rounded (v t : ℕ) (ht : t < 2 ^ 2098) :
    Binary64.ge (if v < 2 ^ 2098 then Binary64.Num.fin v else Binary64.Num.inf)
        (Binary64.Num.fin t) = decide (t ≤ v) := by
  by_cases hv : v < 2 ^ 2098
  · rw [if_pos hv]; rfl
  · rw [if_neg hv]
    have : t ≤ v := by omega
    simp [Binary64.ge, this]

/-- One tick from a running state, in terms of the rounded sum `v`: it stops
the interval when `v` reaches the target and keeps it running at `v` otherwise. -/
theorem binary64_tick_cases (t c inc v : ℕ) (txt : Binary64.Shown) (ht : t < 2 ^ 2098)
    (hinc : Binary64.increment (Binary64.Num.fin t) = Binary64.Num.fin inc)
    (hadd : Binary64.add (Binary64.Num.fin c) (Binary64.Num.fin inc)
      = (if v < 2 ^ 2098 then Binary64.Num.fin v else Binary64.Num.inf)) :
    (t ≤ v →
      (Binary64.timerCallback (Binary64.Num.fin t)
        { current := Binary64.Num.fin c, textContent := txt, cleared := false }).cleared = true
      ∧ Binary64.ge
          (Binary64.timerCallback (Binary64.Num.fin t)
            { current := Binary64.Num.fin c, textContent := txt, cleared := false }).current
          (Binary64.Num.fin t) = true)
    ∧ (v < t → ∃ txt1,
        Binary64.timerCallback (Binary64.Num.fin t)
          { current := Binary64.Num.fin c, textContent := txt, cleared := false }
        = { current := Binary64.Num.fin v, textContent := txt1, cleared := false }) := by
  have hge : Binary64.ge
      (Binary64.add (Binary64.Num.fin c) (Binary64.increment (Binary64.Num.fin t)))
      (Binary64.Num.fin t) = decide (t ≤ v) := by
    rw [hinc, hadd, ge_rounded v t ht]
  constructor
  · intro hstop
    have h1 : Binary64.ge
        (Binary64.add (Binary64.Num.fin c) (Binary64.increment (Binary64.Num.fin t)))
        (Binary64.Num.fin t) = true := by
      rw [hge]; exact decide_eq_true hstop
    rw [binary64_tick_stop _ _ _ h1]
    refine ⟨rfl, ?_⟩
    dsimp only
    exact h1
  · intro hgo
    have h1 : Binary64.ge
        (Binary64.add (Binary64.Num.fin c) (Binary64.increment (Binary64.Num.fin t)))
        (Binary64.Num.fin t) = false := by
      rw [hge]; exact decide_eq_false (by omega)
    obtain ⟨txt1, htick⟩ := binary64_tick_go (Binary64.Num.fin t) (Binary64.Num.fin c) txt h1
    refine ⟨txt1, ?_⟩
    rw [htick, hinc, hadd, if_pos (by omega)]

theorem binary64_afterTicks_succ (target : Binary64.Num) (k : ℕ) :
    Binary64.afterTicks target (k + 1)
      = Binary64.timerCallback target (Binary64.afterTicks target k) := by
  simp only [Binary64.afterTicks, Function.iterate_succ_apply']

/-- When `runningAfter` gives a value, the interval is still running after that
many ticks, with that running value. -/
theorem runningAfter_sound (t inc : ℕ) (ht : t < 2 ^ 2098)
    (hinc : Binary64.increment (Binary64.Num.fin t) = Binary64.Num.fin inc) (n : ℕ) :
    ∀ (c c1 : ℕ) (txt : Binary64.Shown), c < 2 ^ 2098 →
      Binary64.runningAfter t inc n c = some c1 →
      ∃ txt1, (Binary64.timerCallback (Binary64.Num.fin t))^[n]
          { current := Binary64.Num.fin c, textContent := txt, cleared := false }
        = { current := Binary64.Num.fin c1, textContent := txt1, cleared := false } := by
  induction n with
  | zero =>
    intro c c1 txt _ h
    simp only [Binary64.runningAfter, Option.some.injEq] at h
    subst h
    exact ⟨txt, rfl⟩
  | succ n ih =>
    intro c c1 txt hc h
    have hx : c + inc < 2 ^ 2100 := by
      have hi : inc < 2 ^ 2098 := by
        by_contra hcon
        have := hinc
        simp only [Binary64.increment, Binary64.divBy, Binary64.roundUnits] at this
        split at this
        · simp only [Binary64.Num.fin.injEq] at this
          omega
        · exact Binary64.Num.noConfusion this
      have e : (2 : ℕ) ^ 2100 = 4 * 2 ^ 2098 := by
        rw [show 2100 = 2 + 2098 from rfl, pow_add]; norm_num
      omega
    have hlog : Binary64.log2Fuel 2100 (c + inc) 0 = Nat.log2 (c + inc) := by
      rw [log2Fuel_eq 2100 (c + inc) 0 hx, Nat.zero_add]
    simp only [Binary64.runningAfter, hlog] at h
    split at h
    · next hlt =>
      have hadd : Binary64.add (Binary64.Num.fin c) (Binary64.Num.fin inc)
          = (if Binary64.roundQuot (c + inc) (2 ^ (Nat.log2 (c + inc) - 52))
                * 2 ^ (Nat.log2 (c + inc) - 52) < 2 ^ 2098 then
              Binary64.Num.fin (Binary64.roundQuot (c + inc) (2 ^ (Nat.log2 (c + inc) - 52))
                * 2 ^ (Nat.log2 (c + inc) - 52))
            else Binary64.Num.inf) := by
        simp only [Binary64.add, Binary64.roundUnits, Nat.div_one, one_mul]
      obtain ⟨txt1, htick⟩ := (binary64_tick_cases t c inc _ txt ht hinc hadd).2 hlt
      obtain ⟨txt2, hrun⟩ := ih _ c1 txt1 (by omega) h
      exact ⟨txt2, by rw [Function.iterate_succ_apply, htick, hrun]⟩
    · exact Option.noConfusion h

theorem two_pow_le_two_pow (a b : ℕ) (h : a ≤ b) : 2 ^ a ≤ 2 ^ b :=
  Nat.pow_le_pow_right (by norm_num) h

/-- Below `2^46` units the increment is the nearest whole number to `t / 60`,
and from 1771 units on the target lies above 59 and within 61 increments. -/
theorem increment_small (t : ℕ) (h1771 : 1771 ≤ t) (hsmall : t < 2 ^ 46) :
    Binary64.increment (Binary64.Num.fin t) = Binary64.Num.fin (Binary64.roundQuot t 60)
    ∧ 59 * Binary64.roundQuot t 60 < t ∧ t ≤ 61 * Binary64.roundQuot t 60 := by
  have hb : 59 * Binary64.roundQuot t 60 < t ∧ t ≤ 61 * Binary64.roundQuot t 60 := by
    unfold Binary64.roundQuot
    split_ifs <;> omega
  refine ⟨?_, hb⟩
  simp only [Binary64.increment, Binary64.divBy, Binary64.steps]
  have hq : t / 60 < 2 ^ 53 := by omega
  rw [roundUnits_small t 60 hq, if_pos]
  have h2 : (2 : ℕ) ^ 46 ≤ 2 ^ 2098 := two_pow_le_two_pow 46 2098 (by norm_num)
  generalize (2 : ℕ) ^ 2098 = top at h2 ⊢
  omega

/-- From `2^46` units on the increment is within `t / 2^41` of `t / 60`. -/
theorem increment_large (t : ℕ) (ht : t < 2 ^ 2098) (hlarge : 2 ^ 46 ≤ t) :
    ∃ inc, Binary64.increment (Binary64.Num.fin t) = Binary64.Num.fin inc
      ∧ 2 ^ 41 * (60 * inc) ≤ 2 ^ 41 * t + t
      ∧ 2 ^ 41 * t ≤ 2 ^ 41 * (60 * inc) + t := by
  simp only [Binary64.increment, Binary64.divBy, Binary64.steps, Binary64.roundUnits]
  have hq0 : t / 60 * 60 ≤ t := Nat.div_mul_le_self t 60
  have hpos : 0 < 2 ^ (Nat.log2 (t / 60) - 52) := two_pow_pos _
  have hd : 0 < 60 * 2 ^ (Nat.log2 (t / 60) - 52) := Nat.mul_pos (by norm_num) hpos
  have herr := roundQuot_error t (60 * 2 ^ (Nat.log2 (t / 60) - 52)) hd
  have hsp := spacing_cases (t / 60)
  have hexp : Binary64.roundQuot t (60 * 2 ^ (Nat.log2 (t / 60) - 52))
        * (60 * 2 ^ (Nat.log2 (t / 60) - 52))
      = 60 * (Binary64.roundQuot t (60 * 2 ^ (Nat.log2 (t / 60) - 52))
        * 2 ^ (Nat.log2 (t / 60) - 52)) := by
    ring
  rw [hexp] at herr
  generalize Binary64.roundQuot t (60 * 2 ^ (Nat.log2 (t / 60) - 52))
    * 2 ^ (Nat.log2 (t / 60) - 52) = v at herr ⊢
  have hbounds : 2 ^ 41 * (60 * v) ≤ 2 ^ 41 * t + t ∧ 2 ^ 41 * t ≤ 2 ^ 41 * (60 * v) + t := by
    rcases hsp with h0 | h0
    · rw [h0] at herr
      norm_num at herr
      omega
    · generalize 2 ^ (Nat.log2 (t / 60) - 52) = P at herr h0 hpos
      generalize t / 60 = q0 at h0 hq0
      omega
  have hv : v < 2 ^ 2098 := by
    generalize (2 : ℕ) ^ 2098 = top at ht ⊢
    omega
  rw [if_pos hv]
  exact ⟨v, rfl, hbounds⟩

/-- What the stopping argument needs of the target `t` and the increment `inc`:
the running value stays below the target through tick 59, and a running value
below the target at tick 60 is carried to the target by tick 61. -/
theorem stopping_facts (t : ℕ) (ht : t < 2 ^ 2098) (h1771 : 1771 ≤ t) :
    ∃ inc, Binary64.increment (Binary64.Num.fin t) = Binary64.Num.fin inc
      ∧ inc ≤ t
      ∧ (∀ k c, k ≤ 59 → Binary64.Near t inc k c → c < t)
      ∧ (∀ c v, Binary64.Near t inc 60 c → c < t →
          2 ^ 53 * (c + inc) ≤ 2 ^ 53 * v + (c + inc) → t ≤ v) := by
  by_cases hsmall : t < 2 ^ 46
  · obtain ⟨hinc, h59, h61⟩ := increment_small t h1771 hsmall
    refine ⟨_, hinc, by omega, ?_, ?_⟩
    · intro k c hk hnear
      have h1 : k * t ≤ 59 * t := Nat.mul_le_mul_right t hk
      have h2 : k * Binary64.roundQuot t 60 ≤ 59 * Binary64.roundQuot t 60 :=
        Nat.mul_le_mul_right _ hk
      unfold Binary64.Near at hnear
      generalize k * t = kt at h1 hnear
      generalize k * Binary64.roundQuot t 60 = kI at h2 hnear
      generalize Binary64.roundQuot t 60 = inc at h59 h61 h2
      omega
    · intro c v hnear hc hv
      unfold Binary64.Near at hnear
      generalize Binary64.roundQuot t 60 = inc at h59 h61 hnear hv
      omega
  · obtain ⟨inc, hinc, e1, e2⟩ := increment_large t ht (not_lt.1 hsmall)
    have hlarge : 2 ^ 46 ≤ t := not_lt.1 hsmall
    refine ⟨inc, hinc, by omega, ?_, ?_⟩
    · intro k c hk hnear
      have h1 : k * t ≤ 59 * t := Nat.mul_le_mul_right t hk
      have h2 : k * inc ≤ 59 * inc := Nat.mul_le_mul_right _ hk
      unfold Binary64.Near at hnear
      generalize k * t = kt at h1 hnear
      generalize k * inc = kI at h2 hnear
      omega
    · intro c v hnear hc hv
      unfold Binary64.Near at hnear
      omega

/-- One addition keeps the running value near the multiples of the increment. -/
theorem near_step (t inc k c v : ℕ) (hnear : Binary64.Near t inc k c) (hc : c < t)
    (hinc : inc ≤ t)
    (h1 : 2 ^ 53 * v ≤ 2 ^ 53 * (c + inc) + (c + inc))
    (h2 : 2 ^ 53 * (c + inc) ≤ 2 ^ 53 * v + (c + inc)) :
    Binary64.Near t inc (k + 1) v := by
  unfold Binary64.Near at hnear ⊢
  have e1 : (k + 1) * inc = k * inc + inc := by ring
  have e2 : (k + 1) * t = k * t + t := by ring
  rw [e1, e2]
  generalize k * t = kt at hnear ⊢
  generalize k * inc = kI at hnear ⊢
  omega

/-- Through tick 59 the interval is running, below the target and near the
multiples of the increment. -/
theorem binary64_running_through_59 (t inc : ℕ) (ht : t < 2 ^ 2098)
    (hinc : Binary64.increment (Binary64.Num.fin t) = Binary64.Num.fin inc)
    (hle : inc ≤ t)
    (h59 : ∀ k c, k ≤ 59 → Binary64.Near t inc k c → c < t) (hpos : 0 < t) (k : ℕ)
    (hk : k ≤ 59) :
    ∃ c txt, Binary64.afterTicks (Binary64.Num.fin t) k
        = { current := Binary64.Num.fin c, textContent := txt, cleared := false }
      ∧ c < t ∧ Binary64.Near t inc k c := by
  induction k with
  | zero =>
    exact ⟨0, Binary64.Shown.original, rfl, hpos, by simp [Binary64.Near]⟩
  | succ k ih =>
    obtain ⟨c, txt, hstate, hc, hnear⟩ := ih (by omega)
    obtain ⟨v, hadd, hv1, hv2⟩ := add_error c inc
    have hnear1 := near_step t inc k c v hnear hc hle hv1 hv2
    have hv : v < t := h59 (k + 1) v hk hnear1
    obtain ⟨txt1, htick⟩ := (binary64_tick_cases t c inc v txt ht hinc hadd).2 hv
    exact ⟨v, txt1, by rw [binary64_afterTicks_succ, hstate, htick], hv, hnear1⟩

theorem increment_of_spacing (t s : ℕ) (hs : Nat.log2 (t / 60) - 52 = s)
    (hfin : Binary64.roundQuot t (60 * 2 ^ s) * 2 ^ s < 2 ^ 2098) :
    Binary64.increment (Binary64.Num.fin t)
      = Binary64.Num.fin (Binary64.roundQuot t (60 * 2 ^ s) * 2 ^ s) := by
  subst hs
  simp only [Binary64.increment, Binary64.divBy, Binary64.steps, Binary64.roundUnits]
  rw [if_pos hfin]

/-- For the target 500 the sixty additions of `500 / 60` stay below 500: the
interval is still running after tick 60. -/
theorem binary64_500_running_at_60 :
    (Binary64.afterTicks (Binary64.Num.fin (500 * 2 ^ 1074)) 60).cleared = false := by
  have hlt : 500 * 2 ^ 1074 < 2 ^ 2098 :=
    mul_pow_lt_pow 500 1074 9 2098 (by norm_num) (by norm_num)
  have hlog : Nat.log2 (500 * 2 ^ 1074 / 60) = 1077 := by
    have hfuel : Binary64.log2Fuel 2100 (500 * 2 ^ 1074 / 60) 0 = 1077 := by decide!
    have hb : 500 * 2 ^ 1074 / 60 < 2 ^ 2100 :=
      lt_of_le_of_lt (Nat.div_le_self _ _)
        (mul_pow_lt_pow 500 1074 9 2100 (by norm_num) (by norm_num))
    rw [log2Fuel_eq 2100 _ 0 hb, Nat.zero_add] at hfuel
    exact hfuel
  have hfin : Binary64.roundQuot (500 * 2 ^ 1074) (60 * 2 ^ 1025) * 2 ^ 1025 < 2 ^ 2098 := by
    decide!
  have hs : Nat.log2 (500 * 2 ^ 1074 / 60) - 52 = 1025 := by rw [hlog]
  have hinc := increment_of_spacing (500 * 2 ^ 1074) 1025 hs hfin
  have hrun : (Binary64.runningAfter (500 * 2 ^ 1074)
      (Binary64.roundQuot (500 * 2 ^ 1074) (60 * 2 ^ 1025) * 2 ^ 1025) 60 0).isSome
      = true := by decide!
  obtain ⟨c1, hc1⟩ := Option.isSome_iff_exists.1 hrun
  obtain ⟨txt1, hstate⟩ := runningAfter_sound _ _ hlt hinc 60 0 c1 Binary64.Shown.original
    (two_pow_pos 2098) hc1
  have hstate2 : Binary64.afterTicks (Binary64.Num.fin (500 * 2 ^ 1074)) 60
      = { current := Binary64.Num.fin c1, textContent := txt1, cleared := false } := hstate
  rw [hstate2]

/-- The bound of 1771 units cannot be lowered: for the target of 1770 units the
increment is 30 units and tick 59 already reaches the target. -/
theorem binary64_1770_clears_on_tick_59 :
    (Binary64.afterTicks (Binary64.Num.fin 1770) 59).cleared = true := by
  have hlt : 1770 < 2 ^ 2098 := lt_of_lt_of_le (by norm_num) (two_pow_le_two_pow 11 2098 (by norm_num))
  have hq : Binary64.roundQuot 1770 60 = 30 := by decide
  have hinc : Binary64.increment (Binary64.Num.fin 1770) = Binary64.Num.fin 30 := by
    simp only [Binary64.increment, Binary64.divBy, Binary64.steps]
    rw [roundUnits_small 1770 60 (by norm_num), hq, if_pos]
    exact lt_of_lt_of_le (by norm_num) (two_pow_le_two_pow 5 2098 (by norm_num))
  have hrun : Binary64.runningAfter 1770 30 58 0 = some 1740 := by decide!
  obtain ⟨txt1, hstate⟩ := runningAfter_sound 1770 30 hlt hinc 58 0 1740
    Binary64.Shown.original (two_pow_pos 2098) hrun
  have hstate2 : Binary64.afterTicks (Binary64.Num.fin 1770) 58
      = { current := Binary64.Num.fin 1740, textContent := txt1, cleared := false } := hstate
  obtain ⟨v, hadd, h1, h2⟩ := add_error 1740 30
  have hv : 1770 ≤ v := by omega
  rw [binary64_afterTicks_succ, hstate2]
  exact ((binary64_tick_cases 1770 1740 30 v txt1 hlt hinc hadd).1 hv).1

/-- C2, as stated, fails on the code: for the target 500 the sixty additions of
`500 / 60` in binary64 stay below 500, so tick 60 does not reach the target
and leaves the interval running. -/
theorem counter_still_running_on_tick_60 :
    ¬ (∀ t : ℕ, Binary64.representable t → 0 < t →
        (Binary64.afterTicks (Binary64.Num.fin t) 60).cleared = true) := by
  intro h
  have hlt : 500 * 2 ^ 1074 < 2 ^ 2098 :=
    mul_pow_lt_pow 500 1074 9 2098 (by norm_num) (by norm_num)
  have hpos : 0 < 500 * 2 ^ 1074 := le_mul_pow 1 500 1074 (by norm_num)
  have hcl := h (500 * 2 ^ 1074) (representable_mul_pow 500 1074 (by norm_num) hlt) hpos
  rw [binary64_500_running_at_60] at hcl
  exact Bool.noConfusion hcl

theorem le_mul_pow_of_le_pow (x m e k : ℕ) (hx : x ≤ 2 ^ k) (hk : k ≤ e) (hm : 1 ≤ m) :
    x ≤ m * 2 ^ e :=
  calc x ≤ 2 ^ k := hx
    _ ≤ 2 ^ e := two_pow_le_two_pow k e hk
    _ = 1 * 2 ^ e := (Nat.one_mul _).symm
    _ ≤ m * 2 ^ e := Nat.mul_le_mul_right _ hm

/-- C2, amended: in the binary64 arithmetic of the code, for every parsed
target that is a finite number of at least 1771 units (`1771 * 2^-1074`, about
`8.7e-321`), the interval is cleared on tick 60 or on tick 61: on every
earlier tick the interval is still running, its running value is below the
target and within `k * target / 2^52` of `k` times the increment (the code's
`target / 60`), and on the stopping tick the running value has reached the
target. -/
theorem counter_clears_on_tick_60_or_61 (t : ℕ) (hrep : Binary64.representable t)
    (h1771 : 1771 ≤ t) :
    ∃ inc n, Binary64.increment (Binary64.Num.fin t) = Binary64.Num.fin inc
      ∧ (n = 60 ∨ n = 61)
      ∧ (∀ k, k < n → ∃ c,
          (Binary64.afterTicks (Binary64.Num.fin t) k).current = Binary64.Num.fin c
          ∧ c < t ∧ Binary64.Near t inc k c
          ∧ (Binary64.afterTicks (Binary64.Num.fin t) k).cleared = false)
      ∧ (Binary64.afterTicks (Binary64.Num.fin t) n).cleared = true
      ∧ Binary64.ge (Binary64.afterTicks (Binary64.Num.fin t) n).current
          (Binary64.Num.fin t) = true := by
  obtain ⟨inc, hinc, hle, h59, h61⟩ := stopping_facts t hrep.1 h1771
  have hrun := binary64_running_through_59 t inc hrep.1 hinc hle h59 (by omega)
  have hbefore : ∀ k, k ≤ 59 → ∃ c,
      (Binary64.afterTicks (Binary64.Num.fin t) k).current = Binary64.Num.fin c
      ∧ c < t ∧ Binary64.Near t inc k c
      ∧ (Binary64.afterTicks (Binary64.Num.fin t) k).cleared = false := by
    intro k hk
    obtain ⟨c, txt, hstate, hc, hnear⟩ := hrun k hk
    exact ⟨c, by rw [hstate], hc, hnear, by rw [hstate]⟩
  obtain ⟨c59, txt59, hstate59, hc59, hnear59⟩ := hrun 59 (le_refl _)
  obtain ⟨v60, hadd60, ha60, hb60⟩ := add_error c59 inc
  have hnear60 := near_step t inc 59 c59 v60 hnear59 hc59 hle ha60 hb60
  have htick60 := binary64_tick_cases t c59 inc v60 txt59 hrep.1 hinc hadd60
  have hs60 : Binary64.afterTicks (Binary64.Num.fin t) 60
      = Binary64.timerCallback (Binary64.Num.fin t)
          { current := Binary64.Num.fin c59, textContent := txt59, cleared := false } := by
    rw [binary64_afterTicks_succ, hstate59]
  by_cases hstop : t ≤ v60
  · refine ⟨inc, 60, hinc, Or.inl rfl, fun k hk => hbefore k (by omega), ?_, ?_⟩
    · rw [hs60]; exact (htick60.1 hstop).1
    · rw [hs60]; exact (htick60.1 hstop).2
  · have hv60 : v60 < t := by omega
    obtain ⟨txt60, hgo⟩ := htick60.2 hv60
    have hstate60 : Binary64.afterTicks (Binary64.Num.fin t) 60
        = { current := Binary64.Num.fin v60, textContent := txt60, cleared := false } := by
      rw [hs60, hgo]
    obtain ⟨v61, hadd61, _, hb61⟩ := add_error v60 inc
    have hreach : t ≤ v61 := h61 v60 v61 hnear60 hv60 hb61
    have htick61 := binary64_tick_cases t v60 inc v61 txt60 hrep.1 hinc hadd61
    have hs61 : Binary64.afterTicks (Binary64.Num.fin t) 61
        = Binary64.timerCallback (Binary64.Num.fin t)
            { current := Binary64.Num.fin v60, textContent := txt60, cleared := false } := by
      rw [binary64_afterTicks_succ, hstate60]
    refine ⟨inc, 61, hinc, Or.inr rfl, ?_, ?_, ?_⟩
    · intro k hk
      rcases Nat.lt_or_ge k 60 with hlt | hge
      · exact hbefore k (by omega)
      · have hk60 : k = 60 := by omega
        subst hk60
        exact ⟨v60, by rw [hstate60], hv60, hnear60, by rw [hstate60]⟩
    · rw [hs61]; exact (htick61.1 hreach).1
    · rw [hs61]; exact (htick61.1 hreach).2

/-- Witness for C2: for the target `500` (`500 * 2^1074` units) the interval is
cleared on tick 61. -/
theorem counter_clears_on_tick_60_or_61_witness :
    (Binary64.afterTicks (Binary64.Num.fin (500 * 2 ^ 1074)) 61).cleared = true := by
  obtain ⟨_, n, _, hn, _, hcl, _⟩ :=
    counter_clears_on_tick_60_or_61 (500 * 2 ^ 1074)
      (representable_mul_pow 500 1074 (by norm_num)
        (mul_pow_lt_pow 500 1074 9 2098 (by norm_num) (by norm_num)))
      (le_mul_pow_of_le_pow 1771 500 1074 11 (by norm_num) (by norm_num) (by norm_num))
  rcases hn with h60 | h61
  · subst h60
    rw [binary64_500_running_at_60] at hcl
    exact Bool.noConfusion hcl
  · subst h61
    exact hcl

end Saarthi
